import Mathlib

/-!
# storj `private/apigen/common.go`

A shallow embedding of the API / endpoint-group metadata model of the API code generator
(`API.Group`, `API.endpointBasePath`, `getElementaryType`, `isNillableType`, `compoundTypeName`,
`capitalize`, `uncapitalize`, `mapToSlice`, `filter`) together with the parts of the Go standard
library these functions call (`regexp.MatchString`, `strings.EqualFold`, `strings.HasPrefix`,
`strings.Join`, `path.Join`, `path.Clean`, `utf8.DecodeRuneInString`, `unicode.ToTitle`,
`unicode.ToLower`, `sort.SliceStable`, `reflect.Kind`).

Conventions.
* A Go `string` is a finite sequence of bytes; it is embedded as a list of naturals
  (`GoString`), a byte being a natural below 256. No definition below depends on the bound.
* A Go `rune` is embedded as a natural.
* A `panic` is embedded as an explicit error result; a method with a pointer receiver returns
  the receiver's state after the call next to its result.
-/

namespace Apigen

/-! ## Go strings -/

/-- A Go string: its bytes, in order. -/
abbrev GoString := List Nat

/-- The bytes of an ASCII literal (for ASCII text the UTF-8 bytes are the code points). -/
def str (s : String) : GoString := s.toList.map Char.toNat

/-- The constant `utf8.RuneError`. -/
def RuneError : Nat := 0xFFFD

/-- The constant `utf8.RuneSelf`: bytes below it are single-byte runes. -/
def RuneSelf : Nat := 0x80

/-- The tables `first` and `acceptRanges` of `unicode/utf8`, for a non-ASCII leading byte:
the length of the encoding and the accepted range of the second byte, or `none` for a byte
that starts no encoding (`xx` in the table). -/
def utf8First (b : Nat) : Option (Nat × Nat × Nat) :=
  if 0xC2 ≤ b ∧ b ≤ 0xDF then some (2, 0x80, 0xBF)
  else if b = 0xE0 then some (3, 0xA0, 0xBF)
  else if 0xE1 ≤ b ∧ b ≤ 0xEC then some (3, 0x80, 0xBF)
  else if b = 0xED then some (3, 0x80, 0x9F)
  else if 0xEE ≤ b ∧ b ≤ 0xEF then some (3, 0x80, 0xBF)
  else if b = 0xF0 then some (4, 0x90, 0xBF)
  else if 0xF1 ≤ b ∧ b ≤ 0xF3 then some (4, 0x80, 0xBF)
  else if b = 0xF4 then some (4, 0x80, 0x8F)
  else none

/-- The function `utf8.DecodeRuneInString`: the first rune of `s` and its width in bytes;
`(RuneError, 0)` for the empty string and `(RuneError, 1)` for an invalid encoding. The masks
and shifts of the source are written as remainders and products. -/
def DecodeRuneInString (s : GoString) : Nat × Nat :=
  match s with
  | [] => (RuneError, 0)
  | s0 :: _ =>
    if s0 < RuneSelf then (s0, 1)
    else
      match utf8First s0 with
      | none => (RuneError, 1)
      | some (sz, lo, hi) =>
        if s.length < sz then (RuneError, 1)
        else
          let s1 := s.getD 1 0
          if s1 < lo ∨ hi < s1 then (RuneError, 1)
          else if sz ≤ 2 then ((s0 % 32) * 64 + s1 % 64, 2)
          else
            let s2 := s.getD 2 0
            if s2 < 0x80 ∨ 0xBF < s2 then (RuneError, 1)
            else if sz ≤ 3 then ((s0 % 16) * 4096 + (s1 % 64) * 64 + s2 % 64, 3)
            else
              let s3 := s.getD 3 0
              if s3 < 0x80 ∨ 0xBF < s3 then (RuneError, 1)
              else ((s0 % 8) * 262144 + (s1 % 64) * 4096 + (s2 % 64) * 64 + s3 % 64, 4)

/-- The runes of the first `fuel` decoding steps over `s`. -/
def runesAux : Nat → GoString → List Nat
  | 0, _ => []
  | _ + 1, [] => []
  | fuel + 1, b :: s =>
    (DecodeRuneInString (b :: s)).1 ::
      runesAux fuel ((b :: s).drop (DecodeRuneInString (b :: s)).2)

/-- The runes a Go `range` over the string `s` yields (and the regexp engine reads): each
decoding step consumes at least one byte, so `len(s)` steps exhaust `s`. -/
def runes (s : GoString) : List Nat := runesAux s.length s

/-- The function `strings.HasPrefix`. -/
def HasPrefix (s pfx : GoString) : Bool := pfx.isPrefixOf s

/-! ## Regular expressions -/

/-- A character class given by inclusive rune ranges, such as `[0-9A-Za-z]`. -/
def charClass (ranges : List (Nat × Nat)) : RegularExpression Nat :=
  (ranges.flatMap fun r => (List.range (r.2 + 1 - r.1)).map fun i => r.1 + i).foldr
    (fun c re => RegularExpression.plus (RegularExpression.char c) re) RegularExpression.zero

/-- The operator `?`: zero or one occurrence. -/
def quest (re : RegularExpression Nat) : RegularExpression Nat :=
  RegularExpression.plus RegularExpression.epsilon re

/-- The pattern `^([A-Za-z][0-9A-Za-z]*)?$`. The anchors `^` and `$` (no flags: beginning and end
of the text) stand at its two ends, so a match is a match of the whole text by the body. -/
def groupNameAndPrefixRegExp : RegularExpression Nat :=
  quest (RegularExpression.comp (charClass [(65, 90), (97, 122)])
    (RegularExpression.star (charClass [(48, 57), (65, 90), (97, 122)])))

/-- The method `MatchString` of a pattern anchored at both ends: the runes of `s` match. -/
def MatchString (re : RegularExpression Nat) (s : GoString) : Bool :=
  re.rmatch (runes s)

/-! ## `strings.EqualFold` -/

/-- The ASCII case test of `strings.EqualFold`, after the two runes are ordered: the smaller
is an upper-case letter and the larger its lower-case form. -/
def asciiFold (sr tr : Nat) : Bool :=
  let lo := if tr < sr then tr else sr
  let hi := if tr < sr then sr else tr
  decide (65 ≤ lo) && decide (lo ≤ 90) && decide (hi = lo + 32)

/-- The loop of `strings.EqualFold` after the label `hasUnicode`: `s` is given by its runes,
`t` by its bytes. `simpleFold sr tr` stands for the outcome of the general case on the ordered
runes `sr < tr`, the walk of `unicode.SimpleFold` from `sr` up to `tr`. -/
def equalFoldUnicode (simpleFold : Nat → Nat → Bool) : List Nat → GoString → Bool
  | [], t => t.length == 0
  | sr :: s, t =>
    if t.length == 0 then false
    else
      let tr := if t.headD 0 < RuneSelf then t.headD 0 else (DecodeRuneInString t).1
      let t1 := if t.headD 0 < RuneSelf then t.tail else t.drop (DecodeRuneInString t).2
      if tr = sr then equalFoldUnicode simpleFold s t1
      else
        let lo := if tr < sr then tr else sr
        let hi := if tr < sr then sr else tr
        if hi < RuneSelf then
          if asciiFold lo hi then equalFoldUnicode simpleFold s t1 else false
        else if simpleFold lo hi then equalFoldUnicode simpleFold s t1
        else false

/-- The function `strings.EqualFold`: equality of `s` and `t` under simple Unicode case folding.
The first loop is the ASCII fast path; it hands over to `equalFoldUnicode` at the first position
where either string has a byte that is not ASCII. -/
def EqualFold (simpleFold : Nat → Nat → Bool) : GoString → GoString → Bool
  | sr :: s, tr :: t =>
    if RuneSelf ≤ sr ∨ RuneSelf ≤ tr then
      equalFoldUnicode simpleFold (runes (sr :: s)) (tr :: t)
    else if tr = sr then EqualFold simpleFold s t
    else if asciiFold sr tr then EqualFold simpleFold s t
    else false
  | [], t => t.length == 0
  | _ :: _, [] => false

/-! ## The API model -/

/-- The type `EndpointGroup`: `Group` sets `Name` and `Prefix`; `rest` stands for the fields
declared with the endpoints, zero in a new group. -/
structure EndpointGroup (ε : Type) where
  Name : GoString
  Prefix : GoString
  rest : ε
  deriving DecidableEq

/-- The type `API`; `α` is the type of the authorization capability `api.Auth`. The pointers
of `EndpointGroups` are embedded as the groups they point to. -/
structure API (α ε : Type) where
  Version : GoString
  Description : GoString
  PackageName : GoString
  PackagePath : GoString
  BasePath : GoString
  Auth : α
  EndpointGroups : List (EndpointGroup ε)
  deriving DecidableEq

/-- The four panics of `API.Group`, in the order of the source. -/
inductive GroupPanic where
  | invalidName
  | invalidPrefix
  | duplicateName
  | duplicatePrefix
  deriving DecidableEq, Repr

/-- The loop of `API.Group` over the existing groups: the first panic it raises, if any. -/
def groupLoop {ε : Type} (simpleFold : Nat → Nat → Bool) (name pfx : GoString) :
    List (EndpointGroup ε) → Option GroupPanic
  | [] => none
  | g :: gs =>
    if EqualFold simpleFold g.Name name then some GroupPanic.duplicateName
    else if EqualFold simpleFold g.Prefix pfx then some GroupPanic.duplicatePrefix
    else groupLoop simpleFold name pfx gs

/-- The method `API.Group`: the panic or the new group, and the API after the call. -/
def API.Group {α ε : Type} [Inhabited ε] (simpleFold : Nat → Nat → Bool) (a : API α ε)
    (name pfx : GoString) : Except GroupPanic (EndpointGroup ε) × API α ε :=
  if ¬ MatchString groupNameAndPrefixRegExp name = true then
    (Except.error GroupPanic.invalidName, a)
  else if ¬ MatchString groupNameAndPrefixRegExp pfx = true then
    (Except.error GroupPanic.invalidPrefix, a)
  else
    match groupLoop simpleFold name pfx a.EndpointGroups with
    | some p => (Except.error p, a)
    | none =>
      let group : EndpointGroup ε := { Name := name, Prefix := pfx, rest := default }
      (Except.ok group, { a with EndpointGroups := a.EndpointGroups ++ [group] })

/-- A finite sequence of `Group` calls, given by their arguments: the API after the last call.
A call that panics leaves the API as `Group` left it. -/
def groupCalls {α ε : Type} [Inhabited ε] (simpleFold : Nat → Nat → Bool) (a : API α ε) :
    List (GoString × GoString) → API α ε
  | [] => a
  | c :: cs => groupCalls simpleFold (a.Group simpleFold c.1 c.2).2 cs

/-- The groups returned by the successful calls of a sequence of `Group` calls, in the order
of the calls. -/
def createdGroups {α ε : Type} [Inhabited ε] (simpleFold : Nat → Nat → Bool) (a : API α ε) :
    List (GoString × GoString) → List (EndpointGroup ε)
  | [] => []
  | c :: cs =>
    match (a.Group simpleFold c.1 c.2).1 with
    | Except.ok g => g :: createdGroups simpleFold (a.Group simpleFold c.1 c.2).2 cs
    | Except.error _ => createdGroups simpleFold (a.Group simpleFold c.1 c.2).2 cs

/-! ## Predicates used in the statements -/

/-- A rune lies in one of the ranges of a class. -/
def inRanges (ranges : List (Nat × Nat)) (c : Nat) : Prop :=
  ∃ r ∈ ranges, r.1 ≤ c ∧ c ≤ r.2

/-- An ASCII letter. -/
def isLetter (c : Nat) : Prop := (65 ≤ c ∧ c ≤ 90) ∨ (97 ≤ c ∧ c ≤ 122)

/-- An ASCII letter or digit. -/
def isAlnum (c : Nat) : Prop := (48 ≤ c ∧ c ≤ 57) ∨ isLetter c

instance (c : Nat) : Decidable (isLetter c) := by unfold isLetter; infer_instance

instance (c : Nat) : Decidable (isAlnum c) := by unfold isAlnum; infer_instance

/-- Empty, or an ASCII letter followed by ASCII letters and digits. -/
def isIdent : List Nat → Prop
  | [] => True
  | c :: cs => isLetter c ∧ ∀ x ∈ cs, isAlnum x

instance (s : List Nat) : Decidable (isIdent s) := by
  cases s <;> unfold isIdent <;> infer_instance

/-! ## Sample values -/

/-- A case-folding outcome for the non-ASCII general case that relates no two runes. -/
def noFold : Nat → Nat → Bool := fun _ _ => false

/-- An API without groups, base path `api` and version `v1`. -/
def apiV1 : API Unit Unit :=
  { Version := str "v1", Description := [], PackageName := [], PackagePath := [],
    BasePath := str "api", Auth := (), EndpointGroups := [] }

/-- The API `apiV1` with one group, of name `Foo` and prefix `foo`. -/
def apiFoo : API Unit Unit :=
  { apiV1 with EndpointGroups := [{ Name := str "Foo", Prefix := str "foo", rest := () }] }

/-! ## `path.Clean`, `path.Join` and `endpointBasePath`

The byte `/` is 47 and the byte `.` is 46. -/

/-- The backtracking of `path.Clean` on a `..` element, from the write index `w`: the source
decrements `out.w`, then keeps decrementing while `out.w > dotdot` and the byte at `out.w` is
not `/`. The result is the new write index. -/
def backtrack (buf : GoString) (dotdot : Nat) : Nat → Nat
  | 0 => 0
  | w + 1 => if dotdot < w ∧ buf.getD w 0 ≠ 47 then backtrack buf dotdot w else w

/-- The main loop of `path.Clean`. The unread part `path[r:]` is the second list, the buffer
`out` (its write index `out.w` is the length of the list) the third, and `dotdot` the index
where `..` must stop. Every iteration reads at least one byte, so `fuel` of at least the
length of the unread part is never exhausted. -/
def cleanLoop (rooted : Bool) : Nat → GoString → GoString → Nat → GoString
  | 0, _, out, _ => out
  | _ + 1, [], out, _ => out
  | fuel + 1, c :: rest, out, dotdot =>
    if c = 47 then
      cleanLoop rooted fuel rest out dotdot
    else if c = 46 ∧ (rest = [] ∨ rest.head? = some 47) then
      cleanLoop rooted fuel rest out dotdot
    else if c = 46 ∧ rest.head? = some 46 ∧ (rest.tail = [] ∨ rest.tail.head? = some 47) then
      if dotdot < out.length then
        cleanLoop rooted fuel rest.tail (out.take (backtrack out dotdot out.length)) dotdot
      else if rooted = false then
        cleanLoop rooted fuel rest.tail
          ((if 0 < out.length then out ++ [47] else out) ++ [46, 46])
          ((if 0 < out.length then out ++ [47] else out) ++ [46, 46]).length
      else
        cleanLoop rooted fuel rest.tail out dotdot
    else
      cleanLoop rooted fuel ((c :: rest).dropWhile fun x => x ≠ 47)
        ((if (rooted = true ∧ out.length ≠ 1) ∨ (rooted = false ∧ out.length ≠ 0)
            then out ++ [47] else out) ++ (c :: rest).takeWhile fun x => x ≠ 47)
        dotdot

/-- The function `path.Clean`. -/
def Clean (path : GoString) : GoString :=
  if path = [] then [46]
  else if path.head? = some 47 then
    if (cleanLoop true path.length path.tail [47] 1).length = 0 then [46]
    else cleanLoop true path.length path.tail [47] 1
  else
    if (cleanLoop false path.length path [] 0).length = 0 then [46]
    else cleanLoop false path.length path [] 0

/-- The loop of `path.Join` that builds the buffer: each element is appended, after a `/`
when the buffer is not empty; empty elements before the first non-empty one are skipped. -/
def joinBuf : GoString → List GoString → GoString
  | buf, [] => buf
  | buf, e :: es =>
    if 0 < buf.length ∨ e ≠ [] then
      joinBuf ((if 0 < buf.length then buf ++ [47] else buf) ++ e) es
    else joinBuf buf es

/-- The function `path.Join`. -/
def Join (elem : List GoString) : GoString :=
  if (elem.map List.length).sum = 0 then [] else Clean (joinBuf [] elem)

/-- The method `API.endpointBasePath`. -/
def API.endpointBasePath {α ε : Type} (a : API α ε) : GoString :=
  if HasPrefix a.BasePath [47] = true then Join [a.BasePath, a.Version]
  else [47] ++ Join [a.BasePath, a.Version]

/-! ## The type classifier -/

/-- The type `reflect.Kind`, its constants in the order of their declaration (`Ptr` is the
name the source uses for `reflect.Pointer`). -/
inductive Kind where
  | Invalid | Bool | Int | Int8 | Int16 | Int32 | Int64
  | Uint | Uint8 | Uint16 | Uint32 | Uint64 | Uintptr
  | Float32 | Float64 | Complex64 | Complex128
  | Array | Chan | Func | Interface | Map | Ptr | Slice | String | Struct | UnsafePointer
  deriving DecidableEq, Repr

/-- The methods of the interface `reflect.Type` that the classifier calls, over a set `τ` of
type descriptors. `Elem` is read only where `reflect` defines it (the classifier calls it at
the kinds array, channel, pointer and slice). The descriptors of a program form a graph:
`Elem` of a descriptor may lead back to it, as for `type T []T`. -/
structure ReflectType (τ : Type) where
  Kind : τ → Kind
  Elem : τ → τ

/-- The function `getElementaryType`, with `fuel` bounding the depth of the recursion: `none`
when the recursion is deeper than `fuel`. -/
def getElementaryType {τ : Type} (R : ReflectType τ) : Nat → τ → Option τ
  | 0, _ => none
  | fuel + 1, t =>
    match R.Kind t with
    | Kind.Array | Kind.Chan | Kind.Ptr | Kind.Slice => getElementaryType R fuel (R.Elem t)
    | _ => some t

/-- The function `isNillableType`. -/
def isNillableType {τ : Type} (R : ReflectType τ) (t : τ) : Bool :=
  match R.Kind t with
  | Kind.Chan | Kind.Interface | Kind.Map | Kind.Ptr | Kind.Slice => true
  | _ => false

/-- The four kinds that `getElementaryType` strips. -/
def isLayer (k : Kind) : Bool :=
  k = Kind.Array ∨ k = Kind.Chan ∨ k = Kind.Ptr ∨ k = Kind.Slice

/-- Finite type descriptors, as trees: the descriptors of types written without recursive
declarations. -/
inductive GoType where
  | bool
  | int
  | string
  | struct (name : String)
  | iface (name : String)
  | func (name : String)
  | array (len : Nat) (elem : GoType)
  | chan (elem : GoType)
  | ptr (elem : GoType)
  | slice (elem : GoType)
  | map (key elem : GoType)
  deriving DecidableEq, Repr

/-- The kind of a finite descriptor. -/
def GoType.Kind : GoType → Kind
  | GoType.bool => Kind.Bool
  | GoType.int => Kind.Int
  | GoType.string => Kind.String
  | GoType.struct _ => Kind.Struct
  | GoType.iface _ => Kind.Interface
  | GoType.func _ => Kind.Func
  | GoType.array _ _ => Kind.Array
  | GoType.chan _ => Kind.Chan
  | GoType.ptr _ => Kind.Ptr
  | GoType.slice _ => Kind.Slice
  | GoType.map _ _ => Kind.Map

/-- The element type of a finite descriptor (the descriptor itself where `reflect` defines
none). -/
def GoType.Elem : GoType → GoType
  | GoType.array _ e => e
  | GoType.chan e => e
  | GoType.ptr e => e
  | GoType.slice e => e
  | GoType.map _ e => e
  | t => t

/-- The finite descriptors as an instance of the interface. -/
def goTypes : ReflectType GoType := { Kind := GoType.Kind, Elem := GoType.Elem }

/-- The number of layers `getElementaryType` strips from a finite descriptor. -/
def GoType.layers : GoType → Nat
  | GoType.array _ e => e.layers + 1
  | GoType.chan e => e.layers + 1
  | GoType.ptr e => e.layers + 1
  | GoType.slice e => e.layers + 1
  | _ => 0

/-- The descriptor graph of the declaration `type T []T`: one descriptor, of kind slice, whose
element type is the descriptor itself. -/
def sliceOfSelf : ReflectType Unit := { Kind := fun _ => Kind.Slice, Elem := fun t => t }

/-- The descriptor graph of the declaration `type P *P`: one descriptor, of kind pointer,
whose element type is the descriptor itself. -/
def pointerToSelf : ReflectType Unit := { Kind := fun _ => Kind.Ptr, Elem := fun t => t }

/-- A descriptor of kind unsafe pointer (the type `unsafe.Pointer`). -/
def unsafePointerType : ReflectType Unit :=
  { Kind := fun _ => Kind.UnsafePointer, Elem := fun t => t }

/-! ## The naming engine -/

/-- The conversion `string(r)` of a rune: its UTF-8 encoding, and the encoding of
`utf8.RuneError` for a surrogate or a value above `utf8.MaxRune`. The shifts and masks of the
encoder are written as quotients and remainders. -/
def runeString (r : Nat) : GoString :=
  if r ≤ 0x7F then [r]
  else if r ≤ 0x7FF then [0xC0 + r / 64, 0x80 + r % 64]
  else if 0x10FFFF < r ∨ (0xD800 ≤ r ∧ r ≤ 0xDFFF) then [0xEF, 0xBF, 0xBD]
  else if r ≤ 0xFFFF then [0xE0 + r / 4096, 0x80 + r / 64 % 64, 0x80 + r % 64]
  else [0xF0 + r / 262144, 0x80 + r / 4096 % 64, 0x80 + r / 64 % 64, 0x80 + r % 64]

/-- The function `unicode.ToTitle`: the ASCII branch of the library, and `titleCase`, the
mapping of the Unicode tables, above `unicode.MaxASCII`. -/
def ToTitle (titleCase : Nat → Nat) (r : Nat) : Nat :=
  if r ≤ 0x7F then (if 97 ≤ r ∧ r ≤ 122 then r - 32 else r) else titleCase r

/-- The function `unicode.ToLower`: the ASCII branch of the library, and `lowerCase`, the
mapping of the Unicode tables, above `unicode.MaxASCII`. -/
def ToLower (lowerCase : Nat → Nat) (r : Nat) : Nat :=
  if r ≤ 0x7F then (if 65 ≤ r ∧ r ≤ 90 then r + 32 else r) else lowerCase r

/-- The function `capitalize`. -/
def capitalize (titleCase : Nat → Nat) (s : GoString) : GoString :=
  if (DecodeRuneInString s).2 ≤ 0 then s
  else runeString (ToTitle titleCase (DecodeRuneInString s).1) ++
    s.drop (DecodeRuneInString s).2

/-- The function `uncapitalize`. -/
def uncapitalize (lowerCase : Nat → Nat) (s : GoString) : GoString :=
  if (DecodeRuneInString s).2 ≤ 0 then s
  else runeString (ToLower lowerCase (DecodeRuneInString s).1) ++
    s.drop (DecodeRuneInString s).2

/-- The function `strings.Join`: the elements with `sep` between consecutive ones. -/
def strings.Join (elems : List GoString) (sep : GoString) : GoString :=
  match elems with
  | [] => []
  | e :: es => es.foldl (fun b s => b ++ sep ++ s) e

/-- The loop of `compoundTypeName`: from index `i`, for `n` more iterations, `titled[i]` is
set to `capitalize(parts[i])`. -/
def titledLoop (titleCase : Nat → Nat) (parts : List GoString) :
    Nat → Nat → List GoString → List GoString
  | 0, _, titled => titled
  | n + 1, i, titled =>
    titledLoop titleCase parts n (i + 1)
      (titled.set i (capitalize titleCase (parts.getD i [])))

/-- The function `compoundTypeName`: `titled` starts as `len(parts)` empty strings. -/
def compoundTypeName (titleCase : Nat → Nat) (base : GoString) (parts : List GoString) :
    GoString :=
  base ++ strings.Join
    (titledLoop titleCase parts parts.length 0 (List.replicate parts.length [])) []

/-! ## The type collection utilities -/

/-- The type `typeAndName`; `Typ` is the field `Type` of the source. -/
structure typeAndName (τ : Type) where
  Typ : τ
  Name : GoString
  deriving DecidableEq

/-- The operator `<` on Go strings: lexicographic order on the bytes, a proper prefix being
smaller. -/
def stringLess : GoString → GoString → Bool
  | [], [] => false
  | [], _ :: _ => true
  | _ :: _, [] => false
  | a :: s, b :: t => if a < b then true else if b < a then false else stringLess s t

/-- Insertion of `x` into a sorted list, before the first element that is not smaller than
`x` under `less`. -/
def stableInsert {β : Type} (less : β → β → Bool) (x : β) : List β → List β
  | [] => [x]
  | y :: l => if less y x = true then y :: stableInsert less x l else x :: y :: l

/-- The function `sort.SliceStable`, by its contract: the elements sorted by `less`, elements
of which neither is smaller than the other keeping their original order. It is written as the
insertion sort that takes the elements from the last to the first. -/
def SliceStable {β : Type} (less : β → β → Bool) : List β → List β
  | [] => []
  | x :: l => stableInsert less x (SliceStable less l)

/-- The function `mapToSlice`. The map `typesAndNames` is given by its entries in the order in
which the `range` statement yields them, an order Go leaves unspecified; the keys of a map are
distinct. -/
def mapToSlice {τ : Type} (typesAndNames : List (τ × GoString)) : List (typeAndName τ) :=
  SliceStable (fun a b => stringLess a.Name b.Name)
    (typesAndNames.foldl (fun list e => list ++ [{ Typ := e.1, Name := e.2 }]) [])

/-- The function `filter`. -/
def filter {τ : Type} (types : List (typeAndName τ)) (keep : typeAndName τ → Bool) :
    List (typeAndName τ) :=
  types.foldl (fun filtered t => if keep t = true then filtered ++ [t] else filtered) []

/-! ## The patterns of the doc comment of `Group` -/

/-- The pattern `^([A-Z0-9]\w*)?$` that the doc comment of `Group` gives for the name, after
the words of the comment; `\w` is the class `[0-9A-Za-z_]`. -/
def docNameRegExp : RegularExpression Nat :=
  quest (RegularExpression.comp (charClass [(65, 90), (48, 57)])
    (RegularExpression.star (charClass [(48, 57), (65, 90), (95, 95), (97, 122)])))

/-- The pattern `^\w*$` that the doc comment of `Group` gives for the prefix, after the words
of the comment. -/
def docPrefixRegExp : RegularExpression Nat :=
  RegularExpression.star (charClass [(48, 57), (65, 90), (95, 95), (97, 122)])

/-! ## Lemmas on patterns -/

theorem foldr_plus_rmatch (l : List Nat) (x : List Nat) :
    (l.foldr (fun c re => RegularExpression.plus (RegularExpression.char c) re)
      RegularExpression.zero).rmatch x = true ↔ ∃ c ∈ l, x = [c] := by
  induction l with
  | nil => simp [RegularExpression.zero_def, RegularExpression.zero_rmatch]
  | cons a l ih =>
    rw [List.foldr_cons, RegularExpression.plus_def, RegularExpression.add_rmatch_iff, ih,
      RegularExpression.char_rmatch_iff]
    simp

theorem charClass_rmatch (ranges : List (Nat × Nat)) (x : List Nat) :
    (charClass ranges).rmatch x = true ↔ ∃ c, x = [c] ∧ inRanges ranges c := by
  unfold charClass inRanges
  rw [foldr_plus_rmatch]
  constructor
  · rintro ⟨c, hc, rfl⟩
    refine ⟨c, rfl, ?_⟩
    rw [List.mem_flatMap] at hc
    obtain ⟨r, hr, hc⟩ := hc
    rw [List.mem_map] at hc
    obtain ⟨i, hi, rfl⟩ := hc
    rw [List.mem_range] at hi
    exact ⟨r, hr, by omega, by omega⟩
  · rintro ⟨c, rfl, r, hr, h1, h2⟩
    refine ⟨c, ?_, rfl⟩
    rw [List.mem_flatMap]
    refine ⟨r, hr, ?_⟩
    rw [List.mem_map]
    exact ⟨c - r.1, by rw [List.mem_range]; omega, by omega⟩

theorem star_charClass_rmatch (ranges : List (Nat × Nat)) (x : List Nat) :
    (RegularExpression.star (charClass ranges)).rmatch x = true ↔
      ∀ c ∈ x, inRanges ranges c := by
  rw [RegularExpression.star_rmatch_iff]
  constructor
  · rintro ⟨S, rfl, hS⟩ c hc
    rw [List.mem_flatten] at hc
    obtain ⟨t, ht, hct⟩ := hc
    obtain ⟨d, rfl, hd⟩ := (charClass_rmatch ranges t).1 (hS t ht).2
    rw [List.mem_singleton] at hct
    exact hct ▸ hd
  · intro h
    refine ⟨x.map fun c => [c], ?_, ?_⟩
    · clear h
      induction x with
      | nil => rfl
      | cons a x ih => simpa using ih
    · intro t ht
      rw [List.mem_map] at ht
      obtain ⟨c, hc, rfl⟩ := ht
      exact ⟨by simp, (charClass_rmatch ranges [c]).2 ⟨c, rfl, h c hc⟩⟩

theorem inRanges_letter (c : Nat) : inRanges [(65, 90), (97, 122)] c ↔ isLetter c := by
  simp [inRanges, isLetter]

theorem inRanges_alnum (c : Nat) :
    inRanges [(48, 57), (65, 90), (97, 122)] c ↔ isAlnum c := by
  simp [inRanges, isAlnum, isLetter]

theorem groupNameAndPrefixRegExp_rmatch (x : List Nat) :
    groupNameAndPrefixRegExp.rmatch x = true ↔ isIdent x := by
  unfold groupNameAndPrefixRegExp quest
  rw [RegularExpression.plus_def, RegularExpression.add_rmatch_iff, RegularExpression.one_def,
    RegularExpression.one_rmatch_iff, RegularExpression.comp_def,
    RegularExpression.mul_rmatch_iff]
  constructor
  · rintro (rfl | ⟨t, u, rfl, ht, hu⟩)
    · trivial
    · obtain ⟨c, rfl, hc⟩ := (charClass_rmatch _ t).1 ht
      rw [star_charClass_rmatch] at hu
      exact ⟨(inRanges_letter c).1 hc, fun x hx => (inRanges_alnum x).1 (hu x hx)⟩
  · intro h
    cases x with
    | nil => exact Or.inl rfl
    | cons c cs =>
      refine Or.inr ⟨[c], cs, rfl, ?_, ?_⟩
      · exact (charClass_rmatch _ [c]).2 ⟨c, rfl, (inRanges_letter c).2 h.1⟩
      · rw [star_charClass_rmatch]
        exact fun x hx => (inRanges_alnum x).2 (h.2 x hx)

/-! ## Lemmas on decoding -/

theorem decode_ascii (b : Nat) (s : GoString) (h : b < 128) :
    DecodeRuneInString (b :: s) = (b, 1) := by
  simp [DecodeRuneInString, RuneSelf, h]

theorem utf8First_some (b sz lo hi : Nat) (h : utf8First b = some (sz, lo, hi)) :
    (sz = 2 ∧ 2 ≤ b % 32) ∨ (sz = 3 ∧ (1 ≤ b % 16 ∨ (lo = 0xA0 ∧ hi = 0xBF))) ∨
      (sz = 4 ∧ (1 ≤ b % 8 ∨ (lo = 0x90 ∧ hi = 0xBF))) := by
  unfold utf8First at h
  split_ifs at h <;> simp only [Option.some.injEq, Prod.mk.injEq] at h <;>
    obtain ⟨rfl, rfl, rfl⟩ := h <;> omega

theorem decode_nonascii (b : Nat) (s : GoString) (h : 128 ≤ b) :
    128 ≤ (DecodeRuneInString (b :: s)).1 := by
  unfold DecodeRuneInString
  simp only [RuneSelf, RuneError]
  rw [if_neg (by omega)]
  cases hu : utf8First b with
  | none => simp
  | some v =>
    obtain ⟨sz, lo, hi⟩ := v
    have hv := utf8First_some b sz lo hi hu
    simp only []
    split_ifs <;> simp only [] <;> omega

theorem runesAux_ascii (fuel : Nat) (s : GoString) (h : ∀ b ∈ s, b < 128)
    (hf : s.length ≤ fuel) : runesAux fuel s = s := by
  induction fuel generalizing s with
  | zero =>
    cases s with
    | nil => rfl
    | cons b s => simp at hf
  | succ fuel ih =>
    cases s with
    | nil => rfl
    | cons b s =>
      have hb : b < 128 := h b (List.mem_cons_self b s)
      rw [runesAux, decode_ascii b s hb]
      simp only [List.drop_succ_cons, List.drop_zero]
      rw [ih s (fun c hc => h c (List.mem_cons_of_mem b hc)) (by simpa using hf)]

theorem runes_ascii (s : GoString) (h : ∀ b ∈ s, b < 128) : runes s = s :=
  runesAux_ascii s.length s h (Nat.le_refl _)

theorem runesAux_nonascii (fuel : Nat) (s : GoString) (h : ∃ b ∈ s, 128 ≤ b)
    (hf : s.length ≤ fuel) : ∃ r ∈ runesAux fuel s, 128 ≤ r := by
  induction fuel generalizing s with
  | zero =>
    cases s with
    | nil => simp at h
    | cons b s => simp at hf
  | succ fuel ih =>
    cases s with
    | nil => simp at h
    | cons b s =>
      rw [runesAux]
      by_cases hb : b < 128
      · rw [decode_ascii b s hb]
        simp only [List.drop_succ_cons, List.drop_zero]
        obtain ⟨c, hc, hc128⟩ := h
        rcases List.mem_cons.1 hc with rfl | hcs
        · omega
        · obtain ⟨r, hr, hr128⟩ := ih s ⟨c, hcs, hc128⟩ (by simpa using hf)
          exact ⟨r, List.mem_cons_of_mem _ hr, hr128⟩
      · exact ⟨_, List.mem_cons_self _ _, decode_nonascii b s (by omega)⟩

theorem isLetter_lt (c : Nat) (h : isLetter c) : c < 128 := by
  unfold isLetter at h; omega

theorem isAlnum_lt (c : Nat) (h : isAlnum c) : c < 128 := by
  unfold isAlnum isLetter at h; omega

theorem isIdent_lt (s : List Nat) (h : isIdent s) : ∀ b ∈ s, b < 128 := by
  cases s with
  | nil => simp
  | cons c cs =>
    intro b hb
    rcases List.mem_cons.1 hb with rfl | hbs
    · exact isLetter_lt _ h.1
    · exact isAlnum_lt _ (h.2 b hbs)

/-- The pattern matches a string exactly when the string is empty or is an ASCII letter
followed by ASCII letters and digits. -/
theorem matchString_iff (s : GoString) :
    MatchString groupNameAndPrefixRegExp s = true ↔ isIdent s := by
  unfold MatchString
  rw [groupNameAndPrefixRegExp_rmatch]
  constructor
  · intro h
    have hall : ∀ b ∈ s, b < 128 := by
      by_contra hcon
      push_neg at hcon
      obtain ⟨r, hr, hr128⟩ := runesAux_nonascii s.length s hcon (Nat.le_refl _)
      have := isIdent_lt _ h r hr
      omega
    rwa [runes_ascii s hall] at h
  · intro h
    rwa [runes_ascii s (isIdent_lt s h)]

theorem matchString_lt (s : GoString) (h : MatchString groupNameAndPrefixRegExp s = true) :
    ∀ b ∈ s, b < 128 :=
  isIdent_lt s ((matchString_iff s).1 h)

/-! ## Lemmas on `Group` -/

theorem groupLoop_none {ε : Type} (simpleFold : Nat → Nat → Bool) (name pfx : GoString)
    (gs : List (EndpointGroup ε)) :
    groupLoop simpleFold name pfx gs = none ↔
      ∀ g ∈ gs, EqualFold simpleFold g.Name name = false ∧
        EqualFold simpleFold g.Prefix pfx = false := by
  induction gs with
  | nil => simp [groupLoop]
  | cons g gs ih =>
    unfold groupLoop
    split_ifs with h1 h2
    · simp [h1]
    · simp [h2]
    · simp [h1, h2, ih]

/-- The two outcomes of `Group`: a panic with the API as it was, or the new group appended. -/
theorem group_cases {α ε : Type} [Inhabited ε] (simpleFold : Nat → Nat → Bool) (a : API α ε)
    (name pfx : GoString) :
    ((∃ p, a.Group simpleFold name pfx = (Except.error p, a)) ∧
        ¬ (MatchString groupNameAndPrefixRegExp name = true ∧
          MatchString groupNameAndPrefixRegExp pfx = true ∧
          groupLoop simpleFold name pfx a.EndpointGroups = none)) ∨
      (a.Group simpleFold name pfx =
          (Except.ok { Name := name, Prefix := pfx, rest := default },
            { a with EndpointGroups :=
                a.EndpointGroups ++ [{ Name := name, Prefix := pfx, rest := default }] }) ∧
        MatchString groupNameAndPrefixRegExp name = true ∧
        MatchString groupNameAndPrefixRegExp pfx = true ∧
        groupLoop simpleFold name pfx a.EndpointGroups = none) := by
  unfold API.Group
  by_cases hn : MatchString groupNameAndPrefixRegExp name = true
  · by_cases hp : MatchString groupNameAndPrefixRegExp pfx = true
    · cases hl : groupLoop simpleFold name pfx a.EndpointGroups with
      | none => right; simp [hn, hp]
      | some p => left; simp [hn, hp]
    · left; simp [hn, hp]
  · left; simp [hn]

theorem equalFold_cons_ascii (simpleFold : Nat → Nat → Bool) (a b : Nat) (s t : GoString)
    (ha : a < 128) (hb : b < 128) :
    EqualFold simpleFold (a :: s) (b :: t) =
      if b = a then EqualFold simpleFold s t
      else if asciiFold a b = true then EqualFold simpleFold s t else false := by
  rw [EqualFold]
  simp only [RuneSelf]
  rw [if_neg (by omega)]

theorem asciiFold_comm (a b : Nat) : asciiFold a b = asciiFold b a := by
  unfold asciiFold
  rcases Nat.lt_trichotomy a b with h | h | h
  · have h2 : ¬ b < a := by omega
    simp [h, h2]
  · subst h; rfl
  · have h2 : ¬ a < b := by omega
    simp [h, h2]

theorem equalFold_comm_ascii (simpleFold : Nat → Nat → Bool) (s t : GoString)
    (hs : ∀ b ∈ s, b < 128) (ht : ∀ b ∈ t, b < 128) :
    EqualFold simpleFold s t = EqualFold simpleFold t s := by
  induction s generalizing t with
  | nil => cases t <;> simp [EqualFold]
  | cons a s ih =>
    cases t with
    | nil => simp [EqualFold]
    | cons b t =>
      have ha : a < 128 := hs a (List.mem_cons_self a s)
      have hb : b < 128 := ht b (List.mem_cons_self b t)
      have ih1 := ih t (fun c hc => hs c (List.mem_cons_of_mem a hc))
        (fun c hc => ht c (List.mem_cons_of_mem b hc))
      rw [equalFold_cons_ascii simpleFold a b s t ha hb,
        equalFold_cons_ascii simpleFold b a t s hb ha, ih1, asciiFold_comm a b]
      by_cases hab : a = b
      · subst hab; simp
      · have hba : ¬ b = a := fun h => hab h.symm
        rw [if_neg hba, if_neg hab]

/-- The invariant of the group list: every name and prefix matches the pattern and, for
two groups with the first earlier in the list, neither the names nor the prefixes are equal
under case folding. -/
theorem groups_invariant_step {α ε : Type} [Inhabited ε] (simpleFold : Nat → Nat → Bool)
    (a : API α ε) (name pfx : GoString)
    (hm : ∀ g ∈ a.EndpointGroups, MatchString groupNameAndPrefixRegExp g.Name = true ∧
      MatchString groupNameAndPrefixRegExp g.Prefix = true)
    (hp : a.EndpointGroups.Pairwise fun g h =>
      EqualFold simpleFold g.Name h.Name = false ∧
        EqualFold simpleFold g.Prefix h.Prefix = false) :
    (∀ g ∈ (a.Group simpleFold name pfx).2.EndpointGroups,
      MatchString groupNameAndPrefixRegExp g.Name = true ∧
        MatchString groupNameAndPrefixRegExp g.Prefix = true) ∧
    ((a.Group simpleFold name pfx).2.EndpointGroups.Pairwise fun g h =>
      EqualFold simpleFold g.Name h.Name = false ∧
        EqualFold simpleFold g.Prefix h.Prefix = false) := by
  rcases group_cases simpleFold a name pfx with ⟨⟨p, hg⟩, _⟩ | ⟨hg, hn, hpf, hl⟩
  · rw [hg]; exact ⟨hm, hp⟩
  · rw [hg]
    rw [groupLoop_none] at hl
    constructor
    · intro g hgm
      rcases List.mem_append.1 hgm with h | h
      · exact hm g h
      · rw [List.mem_singleton] at h
        subst h
        exact ⟨hn, hpf⟩
    · rw [List.pairwise_append]
      refine ⟨hp, List.pairwise_singleton _ _, ?_⟩
      intro g hgm h hh
      rw [List.mem_singleton] at hh
      subst hh
      exact hl g hgm

theorem groupCalls_invariant {α ε : Type} [Inhabited ε] (simpleFold : Nat → Nat → Bool)
    (calls : List (GoString × GoString)) (a : API α ε)
    (hm : ∀ g ∈ a.EndpointGroups, MatchString groupNameAndPrefixRegExp g.Name = true ∧
      MatchString groupNameAndPrefixRegExp g.Prefix = true)
    (hp : a.EndpointGroups.Pairwise fun g h =>
      EqualFold simpleFold g.Name h.Name = false ∧
        EqualFold simpleFold g.Prefix h.Prefix = false) :
    (∀ g ∈ (groupCalls simpleFold a calls).EndpointGroups,
      MatchString groupNameAndPrefixRegExp g.Name = true ∧
        MatchString groupNameAndPrefixRegExp g.Prefix = true) ∧
    ((groupCalls simpleFold a calls).EndpointGroups.Pairwise fun g h =>
      EqualFold simpleFold g.Name h.Name = false ∧
        EqualFold simpleFold g.Prefix h.Prefix = false) := by
  induction calls generalizing a with
  | nil => exact ⟨hm, hp⟩
  | cons c cs ih =>
    obtain ⟨h1, h2⟩ := groups_invariant_step simpleFold a c.1 c.2 hm hp
    exact ih _ h1 h2

theorem groupCalls_created {α ε : Type} [Inhabited ε] (simpleFold : Nat → Nat → Bool)
    (calls : List (GoString × GoString)) (a : API α ε) :
    (groupCalls simpleFold a calls).EndpointGroups =
      a.EndpointGroups ++ createdGroups simpleFold a calls := by
  induction calls generalizing a with
  | nil => simp [groupCalls, createdGroups]
  | cons c cs ih =>
    rw [groupCalls, createdGroups, ih]
    rcases group_cases simpleFold a c.1 c.2 with ⟨⟨p, hg⟩, _⟩ | ⟨hg, _⟩
    · rw [hg]
    · rw [hg]; simp

/-! ## Claims on `API.Group` -/

/-- Claim C1. When `name` and `prefix` both match the pattern and no existing group has a name
equal to `name` or a prefix equal to `prefix` under case folding, `Group` succeeds, the group
it returns has exactly that name and prefix, and the group list afterwards is the previous
list followed by the new group. -/
theorem group_appends {α ε : Type} [Inhabited ε] (simpleFold : Nat → Nat → Bool)
    (a : API α ε) (name pfx : GoString)
    (hn : MatchString groupNameAndPrefixRegExp name = true)
    (hp : MatchString groupNameAndPrefixRegExp pfx = true)
    (hu : ∀ g ∈ a.EndpointGroups, EqualFold simpleFold g.Name name = false ∧
      EqualFold simpleFold g.Prefix pfx = false) :
    ∃ g, (a.Group simpleFold name pfx).1 = Except.ok g ∧ g.Name = name ∧ g.Prefix = pfx ∧
      (a.Group simpleFold name pfx).2.EndpointGroups = a.EndpointGroups ++ [g] := by
  rcases group_cases simpleFold a name pfx with ⟨_, hnot⟩ | ⟨hg, _⟩
  · exact absurd ⟨hn, hp, (groupLoop_none simpleFold name pfx _).2 hu⟩ hnot
  · exact ⟨{ Name := name, Prefix := pfx, rest := default }, by rw [hg], rfl, rfl, by rw [hg]⟩

/-- Witness of C1: on the API holding the group `Foo`/`foo`, the empty name with the prefix
`bar` is registered and appended. -/
theorem group_appends_witness :
    MatchString groupNameAndPrefixRegExp [] = true ∧
    ∃ g, (apiFoo.Group noFold [] (str "bar")).1 = Except.ok g ∧ g.Name = [] ∧
      g.Prefix = str "bar" ∧
      (apiFoo.Group noFold [] (str "bar")).2.EndpointGroups = apiFoo.EndpointGroups ++ [g] :=
  ⟨by decide, group_appends noFold apiFoo [] (str "bar") (by decide) (by decide) (by decide)⟩

/-- Claim C2. `Group` panics exactly when the name fails the pattern, or the prefix fails the
pattern, or an existing group has a name equal to `name` under case folding, or an existing
group has a prefix equal to `prefix` under case folding. In particular, once a group named
`Foo` is registered, `Group` with the name `foo` panics whatever the prefix. -/
theorem group_panics_iff {α ε : Type} [Inhabited ε] (simpleFold : Nat → Nat → Bool)
    (a : API α ε) (name pfx q p : GoString) :
    ((∃ e, (a.Group simpleFold name pfx).1 = Except.error e) ↔
      (MatchString groupNameAndPrefixRegExp name = false ∨
        MatchString groupNameAndPrefixRegExp pfx = false ∨
        (∃ g ∈ a.EndpointGroups, EqualFold simpleFold g.Name name = true) ∨
        (∃ g ∈ a.EndpointGroups, EqualFold simpleFold g.Prefix pfx = true))) ∧
    ((∃ g ∈ a.EndpointGroups, g.Name = str "Foo") →
      ∃ e, (a.Group simpleFold (str "foo") p).1 = Except.error e) ∧
    ((∃ g, (a.Group simpleFold (str "Foo") q).1 = Except.ok g) →
      ∃ e, ((a.Group simpleFold (str "Foo") q).2.Group simpleFold (str "foo") p).1 =
        Except.error e) := by
  have key : ∀ (b : API α ε) (n x : GoString),
      (∃ e, (b.Group simpleFold n x).1 = Except.error e) ↔
      (MatchString groupNameAndPrefixRegExp n = false ∨
        MatchString groupNameAndPrefixRegExp x = false ∨
        (∃ g ∈ b.EndpointGroups, EqualFold simpleFold g.Name n = true) ∨
        (∃ g ∈ b.EndpointGroups, EqualFold simpleFold g.Prefix x = true)) := by
    intro b n x
    rcases group_cases simpleFold b n x with ⟨⟨e, hg⟩, hnot⟩ | ⟨hg, hn, hp, hl⟩
    · refine ⟨fun _ => ?_, fun _ => ⟨e, by rw [hg]⟩⟩
      by_contra hcon
      push_neg at hcon
      obtain ⟨h1, h2, h3, h4⟩ := hcon
      refine hnot ⟨by simpa using h1, by simpa using h2, ?_⟩
      rw [groupLoop_none]
      exact fun g hgm => ⟨by simpa using h3 g hgm, by simpa using h4 g hgm⟩
    · rw [groupLoop_none] at hl
      constructor
      · rintro ⟨e, he⟩
        rw [hg] at he
        cases he
      · rintro (h | h | ⟨g, hgm, h⟩ | ⟨g, hgm, h⟩)
        · rw [hn] at h; cases h
        · rw [hp] at h; cases h
        · rw [(hl g hgm).1] at h; cases h
        · rw [(hl g hgm).2] at h; cases h
  have foo : ∀ b : API α ε, (∃ g ∈ b.EndpointGroups, g.Name = str "Foo") →
      ∃ e, (b.Group simpleFold (str "foo") p).1 = Except.error e := by
    rintro b ⟨g, hgm, hname⟩
    rw [key]
    refine Or.inr (Or.inr (Or.inl ⟨g, hgm, ?_⟩))
    rw [hname]
    rfl
  refine ⟨key a name pfx, foo a, ?_⟩
  rintro ⟨g, hg⟩
  apply foo
  rcases group_cases simpleFold a (str "Foo") q with ⟨⟨e, he⟩, _⟩ | ⟨hok, _⟩
  · rw [he] at hg; cases hg
  · rw [hok]
    exact ⟨_, List.mem_append_right _ (List.mem_singleton_self _), rfl⟩

/-- Witness of C2: `Foo` is registered on an API without groups, and `foo` then panics. -/
theorem group_panics_iff_witness :
    (∃ g, (apiV1.Group noFold (str "Foo") (str "v")).1 = Except.ok g) ∧
    ∃ e, ((apiV1.Group noFold (str "Foo") (str "v")).2.Group noFold (str "foo") (str "w")).1 =
      Except.error e :=
  ⟨⟨_, rfl⟩,
    (group_panics_iff noFold apiV1 [] [] (str "v") (str "w")).2.2 ⟨_, rfl⟩⟩

/-- Claim C3. A call of `Group` that panics leaves the API, its group list and every other
field, as it was before the call; a name or prefix that does not match the pattern, such as
`1abc`, `a-b` or `Ω`, makes the call panic. -/
theorem group_panic_unchanged {α ε : Type} [Inhabited ε] (simpleFold : Nat → Nat → Bool)
    (a : API α ε) (name pfx : GoString) :
    ((∃ e, (a.Group simpleFold name pfx).1 = Except.error e) →
      (a.Group simpleFold name pfx).2 = a) ∧
    ((MatchString groupNameAndPrefixRegExp name = false ∨
        MatchString groupNameAndPrefixRegExp pfx = false) →
      (∃ e, (a.Group simpleFold name pfx).1 = Except.error e) ∧
        (a.Group simpleFold name pfx).2 = a) ∧
    MatchString groupNameAndPrefixRegExp (str "1abc") = false ∧
    MatchString groupNameAndPrefixRegExp (str "a-b") = false ∧
    MatchString groupNameAndPrefixRegExp [0xCE, 0xA9] = false := by
  refine ⟨?_, ?_, by decide, by decide, by decide⟩
  · rintro ⟨e, he⟩
    rcases group_cases simpleFold a name pfx with ⟨⟨p, hg⟩, _⟩ | ⟨hg, _⟩
    · rw [hg]
    · rw [hg] at he; cases he
  · intro h
    rcases group_cases simpleFold a name pfx with ⟨⟨p, hg⟩, _⟩ | ⟨_, hn, hp, _⟩
    · exact ⟨⟨p, by rw [hg]⟩, by rw [hg]⟩
    · rcases h with h | h
      · rw [hn] at h; cases h
      · rw [hp] at h; cases h

/-- Witness of C3: the name `1abc` and the prefix `Ω` panic on the API holding one group, and
the API is unchanged. -/
theorem group_panic_unchanged_witness :
    (∃ e, (apiFoo.Group noFold (str "1abc") (str "v")).1 = Except.error e) ∧
    (apiFoo.Group noFold (str "1abc") (str "v")).2 = apiFoo ∧
    (∃ e, (apiFoo.Group noFold (str "v") [0xCE, 0xA9]).1 = Except.error e) ∧
    (apiFoo.Group noFold (str "v") [0xCE, 0xA9]).2 = apiFoo :=
  ⟨⟨_, rfl⟩,
    (group_panic_unchanged noFold apiFoo (str "1abc") (str "v")).1 ⟨_, rfl⟩,
    ((group_panic_unchanged noFold apiFoo (str "v") [0xCE, 0xA9]).2.1
      (Or.inr (by decide))).1,
    ((group_panic_unchanged noFold apiFoo (str "v") [0xCE, 0xA9]).2.1
      (Or.inr (by decide))).2⟩

/-- Claim C4. On an API reached from an empty group list by any finite sequence of `Group`
calls, every group's name and prefix match the pattern, no two groups at distinct positions
have names equal under case folding, no two have prefixes equal under case folding, and the
group list is the list of the groups created by the successful calls, in the order of the
calls. -/
theorem groupCalls_unique {α ε : Type} [Inhabited ε] (simpleFold : Nat → Nat → Bool)
    (a : API α ε) (calls : List (GoString × GoString)) (h0 : a.EndpointGroups = []) :
    (∀ g ∈ (groupCalls simpleFold a calls).EndpointGroups,
      MatchString groupNameAndPrefixRegExp g.Name = true ∧
        MatchString groupNameAndPrefixRegExp g.Prefix = true) ∧
    (∀ i j : Fin (groupCalls simpleFold a calls).EndpointGroups.length, i ≠ j →
      EqualFold simpleFold ((groupCalls simpleFold a calls).EndpointGroups.get i).Name
        ((groupCalls simpleFold a calls).EndpointGroups.get j).Name = false) ∧
    (∀ i j : Fin (groupCalls simpleFold a calls).EndpointGroups.length, i ≠ j →
      EqualFold simpleFold ((groupCalls simpleFold a calls).EndpointGroups.get i).Prefix
        ((groupCalls simpleFold a calls).EndpointGroups.get j).Prefix = false) ∧
    (groupCalls simpleFold a calls).EndpointGroups = createdGroups simpleFold a calls := by
  obtain ⟨hm, hp⟩ := groupCalls_invariant simpleFold calls a (by simp [h0]) (by simp [h0])
  rw [List.pairwise_iff_get] at hp
  have hlt : ∀ i : Fin (groupCalls simpleFold a calls).EndpointGroups.length,
      (∀ b ∈ ((groupCalls simpleFold a calls).EndpointGroups.get i).Name, b < 128) ∧
      (∀ b ∈ ((groupCalls simpleFold a calls).EndpointGroups.get i).Prefix, b < 128) :=
    fun i => ⟨matchString_lt _ (hm _ (List.get_mem _ _ _)).1,
      matchString_lt _ (hm _ (List.get_mem _ _ _)).2⟩
  refine ⟨hm, ?_, ?_, ?_⟩
  · intro i j hij
    rcases Nat.lt_or_gt_of_ne (fun h => hij (Fin.ext h)) with h | h
    · exact (hp i j h).1
    · rw [equalFold_comm_ascii simpleFold _ _ (hlt i).1 (hlt j).1]
      exact (hp j i h).1
  · intro i j hij
    rcases Nat.lt_or_gt_of_ne (fun h => hij (Fin.ext h)) with h | h
    · exact (hp i j h).2
    · rw [equalFold_comm_ascii simpleFold _ _ (hlt i).2 (hlt j).2]
      exact (hp j i h).2
  · rw [groupCalls_created, h0, List.nil_append]

/-- Witness of C4: four calls on an API without groups, the second a duplicate of the first
up to case and the third of an invalid name, leave the groups of the first and the last. -/
theorem groupCalls_unique_witness :
    (groupCalls noFold apiV1 [(str "Foo", str "foo"), (str "foo", str "bar"),
        (str "1abc", []), ([], [])]).EndpointGroups =
      [{ Name := str "Foo", Prefix := str "foo", rest := () },
        { Name := [], Prefix := [], rest := () }] ∧
    (groupCalls noFold apiV1 [(str "Foo", str "foo"), (str "foo", str "bar"),
        (str "1abc", []), ([], [])]).EndpointGroups =
      createdGroups noFold apiV1 [(str "Foo", str "foo"), (str "foo", str "bar"),
        (str "1abc", []), ([], [])] :=
  ⟨by decide, (groupCalls_unique noFold apiV1 [(str "Foo", str "foo"), (str "foo", str "bar"),
    (str "1abc", []), ([], [])] rfl).2.2.2⟩

/-! ## Lemmas on `path.Clean` -/

theorem backtrack_ge (buf : GoString) (dotdot w : Nat) (h : dotdot < w) :
    dotdot ≤ backtrack buf dotdot w := by
  induction w with
  | zero => omega
  | succ w ih =>
    unfold backtrack
    split_ifs with hc
    · exact ih hc.1
    · omega

theorem head?_take_of_pos {β : Type} (l : List β) (k : Nat) (h : 0 < k) :
    (l.take k).head? = l.head? := by
  cases l with
  | nil => simp
  | cons x l =>
    cases k with
    | zero => omega
    | succ k => simp

theorem head?_append_of_head? {β : Type} (l m : List β) (x : β) (h : l.head? = some x) :
    (l ++ m).head? = some x := by
  cases l with
  | nil => simp at h
  | cons y l => simpa using h

theorem head?_ite_append {β : Type} (l m : List β) (x : β) (p : Prop) [Decidable p]
    (h : l.head? = some x) : (if p then l ++ m else l).head? = some x := by
  split_ifs
  · exact head?_append_of_head? _ _ _ h
  · exact h

/-- On a rooted path the buffer of `path.Clean` keeps its leading `/`. -/
theorem cleanLoop_rooted_head (fuel : Nat) (rest out : GoString)
    (h : out.head? = some 47) : (cleanLoop true fuel rest out 1).head? = some 47 := by
  induction fuel generalizing rest out with
  | zero => simpa [cleanLoop] using h
  | succ fuel ih =>
    cases rest with
    | nil => simpa [cleanLoop] using h
    | cons c rest =>
      rw [cleanLoop]
      by_cases h1 : c = 47
      · rw [if_pos h1]; exact ih _ _ h
      rw [if_neg h1]
      by_cases h2 : c = 46 ∧ (rest = [] ∨ rest.head? = some 47)
      · rw [if_pos h2]; exact ih _ _ h
      rw [if_neg h2]
      by_cases h3 : c = 46 ∧ rest.head? = some 46 ∧ (rest.tail = [] ∨ rest.tail.head? = some 47)
      · rw [if_pos h3]
        by_cases h4 : 1 < out.length
        · rw [if_pos h4]
          apply ih
          rw [head?_take_of_pos _ _ (by have := backtrack_ge out 1 out.length h4; omega)]
          exact h
        · rw [if_neg h4, if_neg (by simp)]
          exact ih _ _ h
      · rw [if_neg h3]
        apply ih
        exact head?_append_of_head? _ _ _ (head?_ite_append _ _ _ _ h)

theorem clean_rooted_head (path : GoString) (h : path.head? = some 47) :
    (Clean path).head? = some 47 := by
  have hne : path ≠ [] := by rintro rfl; simp at h
  have hl := cleanLoop_rooted_head path.length path.tail [47] rfl
  unfold Clean
  rw [if_neg hne, if_pos h]
  split_ifs with h0
  · rw [List.length_eq_zero] at h0
    rw [h0] at hl
    simp at hl
  · exact hl

/-- The loop of `path.Clean` never runs out of fuel: any two amounts of fuel of at least
the length of the unread part give the same buffer. -/
theorem cleanLoop_fuel (rooted : Bool) (fuel1 fuel2 : Nat) (rest out : GoString) (dotdot : Nat)
    (h1 : rest.length ≤ fuel1) (h2 : rest.length ≤ fuel2) :
    cleanLoop rooted fuel1 rest out dotdot = cleanLoop rooted fuel2 rest out dotdot := by
  induction fuel1 generalizing fuel2 rest out dotdot with
  | zero =>
    have hr : rest = [] := List.length_eq_zero.1 (by omega)
    subst hr
    cases fuel2 <;> rfl
  | succ f1 ih =>
    cases rest with
    | nil => cases fuel2 <;> rfl
    | cons c rest =>
      cases fuel2 with
      | zero => simp at h2
      | succ f2 =>
        have hl1 : rest.length ≤ f1 := by simpa using h1
        have hl2 : rest.length ≤ f2 := by simpa using h2
        have ht1 : rest.tail.length ≤ f1 := by rw [List.length_tail]; omega
        have ht2 : rest.tail.length ≤ f2 := by rw [List.length_tail]; omega
        rw [cleanLoop, cleanLoop]
        by_cases c1 : c = 47
        · rw [if_pos c1, if_pos c1]; exact ih _ _ _ _ hl1 hl2
        rw [if_neg c1, if_neg c1]
        by_cases c2 : c = 46 ∧ (rest = [] ∨ rest.head? = some 47)
        · rw [if_pos c2, if_pos c2]; exact ih _ _ _ _ hl1 hl2
        rw [if_neg c2, if_neg c2]
        by_cases c3 : c = 46 ∧ rest.head? = some 46 ∧
            (rest.tail = [] ∨ rest.tail.head? = some 47)
        · rw [if_pos c3, if_pos c3]
          by_cases c4 : dotdot < out.length
          · rw [if_pos c4, if_pos c4]; exact ih _ _ _ _ ht1 ht2
          rw [if_neg c4, if_neg c4]
          by_cases c5 : rooted = false
          · rw [if_pos c5, if_pos c5]; exact ih _ _ _ _ ht1 ht2
          · rw [if_neg c5, if_neg c5]; exact ih _ _ _ _ ht1 ht2
        · rw [if_neg c3, if_neg c3]
          have hd : ((c :: rest).dropWhile fun x => decide (x ≠ 47)).length ≤ rest.length := by
            rw [List.dropWhile_cons_of_pos (by simpa using c1)]
            exact (List.dropWhile_sublist _).length_le
          exact ih _ _ _ _ (by omega) (by omega)

theorem cleanLoop_nil (rooted : Bool) (fuel : Nat) (out : GoString) (dotdot : Nat) :
    cleanLoop rooted fuel [] out dotdot = out := by
  cases fuel <;> rfl

theorem cleanLoop_slash (rooted : Bool) (fuel : Nat) (rest out : GoString) (dotdot : Nat)
    (hf : rest.length + 1 ≤ fuel) :
    cleanLoop rooted fuel (47 :: rest) out dotdot =
      cleanLoop rooted rest.length rest out dotdot := by
  obtain ⟨f, rfl⟩ : ∃ f, fuel = f + 1 := ⟨fuel - 1, by omega⟩
  rw [cleanLoop, if_pos rfl]
  exact cleanLoop_fuel _ _ _ _ _ _ (by omega) (Nat.le_refl _)

theorem isAlnum_ne (c : Nat) (h : isAlnum c) : c ≠ 47 ∧ c ≠ 46 := by
  unfold isAlnum isLetter at h; omega

theorem takeWhile_elem (e rest : GoString) (ha : ∀ c ∈ e, isAlnum c)
    (hr : rest = [] ∨ rest.head? = some 47) :
    (e ++ rest).takeWhile (fun x => decide (x ≠ 47)) = e ∧
      (e ++ rest).dropWhile (fun x => decide (x ≠ 47)) = rest := by
  induction e with
  | nil =>
    rcases hr with rfl | hr
    · simp
    · cases rest with
      | nil => simp
      | cons x rest =>
        have hx : x = 47 := by simpa using hr
        subst hx
        simp
  | cons c e ih =>
    have hc := (isAlnum_ne c (ha c (List.mem_cons_self c e))).1
    obtain ⟨i1, i2⟩ := ih (fun x hx => ha x (List.mem_cons_of_mem c hx))
    rw [List.cons_append, List.takeWhile_cons_of_pos (by simpa using hc),
      List.dropWhile_cons_of_pos (by simpa using hc), i1, i2]
    exact ⟨rfl, rfl⟩

/-- One iteration of `path.Clean` on a path element of ASCII letters and digits: a `/` is
written when the buffer holds more than the root, then the element is copied. -/
theorem cleanLoop_elem (rooted : Bool) (fuel : Nat) (e rest out : GoString) (dotdot : Nat)
    (he : e ≠ []) (ha : ∀ c ∈ e, isAlnum c) (hr : rest = [] ∨ rest.head? = some 47)
    (hf : (e ++ rest).length ≤ fuel) :
    cleanLoop rooted fuel (e ++ rest) out dotdot =
      cleanLoop rooted rest.length rest
        ((if (rooted = true ∧ out.length ≠ 1) ∨ (rooted = false ∧ out.length ≠ 0)
            then out ++ [47] else out) ++ e) dotdot := by
  obtain ⟨ht, hd⟩ := takeWhile_elem e rest ha hr
  cases e with
  | nil => exact absurd rfl he
  | cons c e =>
    obtain ⟨f, rfl⟩ : ∃ f, fuel = f + 1 := ⟨fuel - 1, by simp at hf; omega⟩
    obtain ⟨hc1, hc2⟩ := isAlnum_ne c (ha c (List.mem_cons_self c e))
    rw [List.cons_append] at ht hd ⊢
    rw [cleanLoop, if_neg hc1, if_neg (fun h => hc2 h.1), if_neg (fun h => hc2 h.1), ht, hd]
    have hlen : rest.length ≤ f := by simp at hf; omega
    exact cleanLoop_fuel _ _ _ _ _ _ hlen (Nat.le_refl _)

theorem cleanLoop_slashes (rooted : Bool) (k fuel : Nat) (out : GoString) (dotdot : Nat)
    (hf : k ≤ fuel) : cleanLoop rooted fuel (List.replicate k 47) out dotdot = out := by
  induction k generalizing fuel with
  | zero => exact cleanLoop_nil _ _ _ _
  | succ k ih =>
    rw [List.replicate_succ, cleanLoop_slash _ _ _ _ _ (by simpa using hf)]
    exact ih _ (by simp)

theorem cleanLoop_slashes_elem (rooted : Bool) (k fuel : Nat) (v out : GoString) (dotdot : Nat)
    (hv : v ≠ []) (ha : ∀ c ∈ v, isAlnum c)
    (hc : (rooted = true ∧ out.length ≠ 1) ∨ (rooted = false ∧ out.length ≠ 0))
    (hf : k + v.length ≤ fuel) :
    cleanLoop rooted fuel (List.replicate k 47 ++ v) out dotdot = out ++ 47 :: v := by
  induction k generalizing fuel with
  | zero =>
    have h := cleanLoop_elem rooted fuel v [] out dotdot hv ha (Or.inl rfl) (by simpa using hf)
    rw [List.append_nil] at h
    rw [List.replicate_zero, List.nil_append, h, if_pos hc, cleanLoop_nil]
    simp
  | succ k ih =>
    rw [List.replicate_succ, List.cons_append,
      cleanLoop_slash _ _ _ _ _ (by simp; omega)]
    exact ih _ (by simp)

/-- The loop of `path.Clean` on an element `b`, at least one `/`, and an element `v`, from
the initial buffer (empty, or the root `/`): the two elements joined by one `/`. -/
theorem cleanLoop_two (rooted : Bool) (k fuel : Nat) (b v out : GoString) (dotdot : Nat)
    (hb : b ≠ []) (hab : ∀ c ∈ b, isAlnum c) (hv : v ≠ []) (hav : ∀ c ∈ v, isAlnum c)
    (hc : ¬ ((rooted = true ∧ out.length ≠ 1) ∨ (rooted = false ∧ out.length ≠ 0)))
    (hf : (b ++ (List.replicate (k + 1) 47 ++ v)).length ≤ fuel) :
    cleanLoop rooted fuel (b ++ (List.replicate (k + 1) 47 ++ v)) out dotdot =
      out ++ b ++ 47 :: v := by
  rw [cleanLoop_elem rooted fuel b _ out dotdot hb hab (Or.inr (by simp [List.replicate_succ])) hf,
    if_neg hc]
  apply cleanLoop_slashes_elem _ _ _ _ _ _ hv hav
  · have hbl : b.length ≠ 0 := fun h => hb (List.length_eq_zero.1 h)
    cases rooted
    · right; simp at hc ⊢; exact fun _ => hb
    · left; simp at hc ⊢; omega
  · simp

/-- The loop of `path.Clean` on an element `b` followed by any number of `/`. -/
theorem cleanLoop_one (rooted : Bool) (k fuel : Nat) (b out : GoString) (dotdot : Nat)
    (hb : b ≠ []) (hab : ∀ c ∈ b, isAlnum c)
    (hc : ¬ ((rooted = true ∧ out.length ≠ 1) ∨ (rooted = false ∧ out.length ≠ 0)))
    (hf : (b ++ List.replicate k 47).length ≤ fuel) :
    cleanLoop rooted fuel (b ++ List.replicate k 47) out dotdot = out ++ b := by
  rw [cleanLoop_elem rooted fuel b _ out dotdot hb hab
      (by cases k <;> simp [List.replicate_succ]) hf, if_neg hc]
  exact cleanLoop_slashes _ _ _ _ _ (by simp)

theorem elem_head (b rest : GoString) (hb : b ≠ []) (hab : ∀ c ∈ b, isAlnum c) :
    b ++ rest ≠ [] ∧ ¬ (b ++ rest).head? = some 47 := by
  cases b with
  | nil => exact absurd rfl hb
  | cons c b =>
    have := (isAlnum_ne c (hab c (List.mem_cons_self c b))).1
    simp
    omega

theorem clean_two (k : Nat) (b v : GoString) (hb : b ≠ []) (hab : ∀ c ∈ b, isAlnum c)
    (hv : v ≠ []) (hav : ∀ c ∈ v, isAlnum c) :
    Clean (b ++ (List.replicate (k + 1) 47 ++ v)) = b ++ 47 :: v := by
  obtain ⟨h1, h2⟩ := elem_head b (List.replicate (k + 1) 47 ++ v) hb hab
  have hl := cleanLoop_two false k _ b v [] 0 hb hab hv hav (by simp) (Nat.le_refl _)
  rw [List.nil_append] at hl
  unfold Clean
  rw [if_neg h1, if_neg h2, hl, if_neg (by simp)]

theorem clean_one (k : Nat) (b : GoString) (hb : b ≠ []) (hab : ∀ c ∈ b, isAlnum c) :
    Clean (b ++ List.replicate k 47) = b := by
  obtain ⟨h1, h2⟩ := elem_head b (List.replicate k 47) hb hab
  have hl := cleanLoop_one false k _ b [] 0 hb hab (by simp) (Nat.le_refl _)
  rw [List.nil_append] at hl
  unfold Clean
  rw [if_neg h1, if_neg h2, hl, if_neg (by simpa using hb)]

theorem clean_rooted_two (k : Nat) (b v : GoString) (hb : b ≠ []) (hab : ∀ c ∈ b, isAlnum c)
    (hv : v ≠ []) (hav : ∀ c ∈ v, isAlnum c) :
    Clean (47 :: (b ++ (List.replicate (k + 1) 47 ++ v))) = 47 :: (b ++ 47 :: v) := by
  have hl := cleanLoop_two true k (47 :: (b ++ (List.replicate (k + 1) 47 ++ v))).length
    b v [47] 1 hb hab hv hav (by simp) (by simp)
  unfold Clean
  rw [if_neg (by simp), if_pos (by simp), List.tail_cons, hl, if_neg (by simp)]
  simp

theorem clean_rooted_one (k : Nat) (b : GoString) (hb : b ≠ []) (hab : ∀ c ∈ b, isAlnum c) :
    Clean (47 :: (b ++ List.replicate k 47)) = 47 :: b := by
  have hl := cleanLoop_one true k (47 :: (b ++ List.replicate k 47)).length
    b [47] 1 hb hab (by simp) (by simp)
  unfold Clean
  rw [if_neg (by simp), if_pos (by simp), List.tail_cons, hl, if_neg (by simp)]
  simp

/-! ## Lemmas on `path.Join` -/

theorem join_pair (b v : GoString) (hb : b ≠ []) : Join [b, v] = Clean (b ++ 47 :: v) := by
  have hl : 0 < b.length := List.length_pos.2 hb
  have hs : ¬ ([b, v].map List.length).sum = 0 := by
    simp only [List.map_cons, List.map_nil, List.sum_cons, List.sum_nil]
    omega
  unfold Join
  rw [if_neg hs]
  simp [joinBuf, hb, hl]

theorem join_nil_left (v : GoString) (hv : v ≠ []) : Join [[], v] = Clean v := by
  unfold Join
  rw [if_neg (by simpa using hv)]
  simp [joinBuf, hv]

theorem hasPrefix_slash (s : GoString) : HasPrefix s [47] = true ↔ s.head? = some 47 := by
  cases s with
  | nil => simp [HasPrefix]
  | cons c s =>
    simp [HasPrefix, List.isPrefixOf]
    exact eq_comm

/-! ## Claims on `API.endpointBasePath` -/

/-- Claim C5. For every base path and every version, the string returned by
`endpointBasePath` is not empty and begins with `/`. -/
theorem endpointBasePath_absolute {α ε : Type} (a : API α ε) :
    a.endpointBasePath ≠ [] ∧ a.endpointBasePath.head? = some 47 := by
  have key : a.endpointBasePath.head? = some 47 := by
    unfold API.endpointBasePath
    by_cases hp : HasPrefix a.BasePath [47] = true
    · rw [if_pos hp]
      rw [hasPrefix_slash] at hp
      have hne : a.BasePath ≠ [] := by
        intro h
        rw [h] at hp
        simp at hp
      rw [join_pair _ _ hne]
      exact clean_rooted_head _ (head?_append_of_head? _ _ _ hp)
    · rw [if_neg hp]
      rfl
  refine ⟨?_, key⟩
  intro h
  rw [h] at key
  simp at key

/-- Claim C6. For non-empty `b` and `v` of ASCII letters and digits: with the version `v` and
the base path `b`, `/b` or `/b/` the result is `/b/v`; with the empty version and the same base
paths it is `/b`; with the empty base path and the version `v` it is `/v`. -/
theorem endpointBasePath_join {α ε : Type} (a : API α ε) (b v : GoString)
    (hb : b ≠ []) (hv : v ≠ []) (hab : ∀ c ∈ b, isAlnum c) (hav : ∀ c ∈ v, isAlnum c) :
    (∀ base ∈ [b, 47 :: b, 47 :: (b ++ [47])],
      ({ a with BasePath := base, Version := v }).endpointBasePath = 47 :: (b ++ 47 :: v) ∧
      ({ a with BasePath := base, Version := [] }).endpointBasePath = 47 :: b) ∧
    ({ a with BasePath := [], Version := v }).endpointBasePath = 47 :: v := by
  have e1 : Clean (b ++ 47 :: v) = b ++ 47 :: v := clean_two 0 b v hb hab hv hav
  have e2 : Clean (b ++ [47]) = b := clean_one 1 b hb hab
  have e3 : Clean (47 :: b ++ 47 :: v) = 47 :: (b ++ 47 :: v) :=
    clean_rooted_two 0 b v hb hab hv hav
  have e4 : Clean (47 :: b ++ [47]) = 47 :: b := clean_rooted_one 1 b hb hab
  have e5 : Clean (47 :: (b ++ [47]) ++ 47 :: v) = 47 :: (b ++ 47 :: v) := by
    have h := clean_rooted_two 1 b v hb hab hv hav
    simpa [List.replicate_succ] using h
  have e6 : Clean (47 :: (b ++ [47]) ++ [47]) = 47 :: b := by
    have h := clean_rooted_one 2 b hb hab
    simpa [List.replicate_succ] using h
  have e7 : Clean v = v := by
    have h := clean_one 0 v hv hav
    simpa using h
  have hnp : HasPrefix b [47] = false := by
    have h := (elem_head b [] hb hab).2
    rw [List.append_nil] at h
    rw [← hasPrefix_slash] at h
    simpa using h
  refine ⟨?_, ?_⟩
  · intro base hbase
    simp only [List.mem_cons, List.mem_singleton, List.not_mem_nil, or_false] at hbase
    rcases hbase with rfl | rfl | rfl
    · unfold API.endpointBasePath
      simp only [hnp, Bool.false_eq_true, if_false]
      rw [join_pair _ _ hb, join_pair _ _ hb, e1, e2]
      exact ⟨rfl, rfl⟩
    · unfold API.endpointBasePath
      have hp : HasPrefix (47 :: b) [47] = true := (hasPrefix_slash _).2 rfl
      simp only [hp, if_true]
      rw [join_pair _ _ (by simp), join_pair _ _ (by simp), e3, e4]
      exact ⟨rfl, rfl⟩
    · unfold API.endpointBasePath
      have hp : HasPrefix (47 :: (b ++ [47])) [47] = true := (hasPrefix_slash _).2 rfl
      simp only [hp, if_true]
      rw [join_pair _ _ (by simp), join_pair _ _ (by simp), e5, e6]
      exact ⟨rfl, rfl⟩
  · unfold API.endpointBasePath
    have hp : HasPrefix ([] : GoString) [47] = false := rfl
    simp only [hp, Bool.false_eq_true, if_false]
    rw [join_nil_left _ hv, e7]
    rfl

/-- Witness of C6: base path `api` and version `v1` give `/api/v1`; base path `/api/` and the
empty version give `/api`. -/
theorem endpointBasePath_join_witness :
    ({ apiV1 with BasePath := str "api", Version := str "v1" }).endpointBasePath =
      str "/api/v1" ∧
    ({ apiV1 with BasePath := str "/api/", Version := [] }).endpointBasePath = str "/api" :=
  ⟨((endpointBasePath_join apiV1 (str "api") (str "v1") (by decide) (by decide) (by decide)
      (by decide)).1 (str "api") (by decide)).1,
    ((endpointBasePath_join apiV1 (str "api") (str "v1") (by decide) (by decide) (by decide)
      (by decide)).1 (str "/api/") (by decide)).2⟩

/-- Claim C7, evaluated on the code: with the empty base path and the version `/v1` the result
is `//v1`, with two consecutive `/`, and differs from the result `/v1` for the version `v1`,
which is `/v1` without its leading `/`; with the version `/` the result is `//`. -/
theorem endpointBasePath_empty_base_slash_version :
    ({ apiV1 with BasePath := [], Version := str "/v1" }).endpointBasePath = str "//v1" ∧
    ({ apiV1 with BasePath := [], Version := str "v1" }).endpointBasePath = str "/v1" ∧
    ({ apiV1 with BasePath := [], Version := str "/" }).endpointBasePath = str "//" := by
  decide

/-! ## Lemmas on the type classifier -/

theorem getElementaryType_succ {τ : Type} (R : ReflectType τ) (fuel : Nat) (t : τ) :
    getElementaryType R (fuel + 1) t =
      if isLayer (R.Kind t) = true then getElementaryType R fuel (R.Elem t) else some t := by
  rw [getElementaryType]
  generalize R.Kind t = k
  cases k <;> rfl

theorem isLayer_false (k : Kind) :
    isLayer k = false ↔
      k ≠ Kind.Array ∧ k ≠ Kind.Chan ∧ k ≠ Kind.Ptr ∧ k ≠ Kind.Slice := by
  cases k <;> simp [isLayer]

/-- When the first `n` descriptors of the chain of element types are layers and the next is
not, fuel above `n` returns that descriptor. -/
theorem getElementaryType_iterate {τ : Type} (R : ReflectType τ) (n : Nat) (t : τ)
    (hl : ∀ i, i < n → isLayer (R.Kind (R.Elem^[i] t)) = true)
    (hn : isLayer (R.Kind (R.Elem^[n] t)) = false) (fuel : Nat) (hf : n < fuel) :
    getElementaryType R fuel t = some (R.Elem^[n] t) := by
  induction n generalizing t fuel with
  | zero =>
    obtain ⟨f, rfl⟩ : ∃ f, fuel = f + 1 := ⟨fuel - 1, by omega⟩
    rw [getElementaryType_succ]
    rw [Function.iterate_zero, id] at hn ⊢
    rw [hn]
    rfl
  | succ n ih =>
    obtain ⟨f, rfl⟩ : ∃ f, fuel = f + 1 := ⟨fuel - 1, by omega⟩
    have h0 : isLayer (R.Kind t) = true := hl 0 (by omega)
    rw [getElementaryType_succ, if_pos h0, Function.iterate_succ_apply]
    apply ih
    · intro i hi
      have := hl (i + 1) (by omega)
      rwa [Function.iterate_succ_apply] at this
    · rwa [Function.iterate_succ_apply] at hn
    · omega

theorem getElementaryType_some {τ : Type} (R : ReflectType τ) (fuel : Nat) (t e : τ)
    (h : getElementaryType R fuel t = some e) : isLayer (R.Kind e) = false := by
  induction fuel generalizing t with
  | zero => simp [getElementaryType] at h
  | succ fuel ih =>
    rw [getElementaryType_succ] at h
    by_cases hl : isLayer (R.Kind t) = true
    · rw [if_pos hl] at h
      exact ih _ h
    · rw [if_neg hl] at h
      cases h
      simpa using hl

theorem goType_layers (t : GoType) :
    isLayer (goTypes.Kind (goTypes.Elem^[t.layers] t)) = false := by
  induction t with
  | array len e ih => rw [GoType.layers, Function.iterate_succ_apply]; exact ih
  | chan e ih => rw [GoType.layers, Function.iterate_succ_apply]; exact ih
  | ptr e ih => rw [GoType.layers, Function.iterate_succ_apply]; exact ih
  | slice e ih => rw [GoType.layers, Function.iterate_succ_apply]; exact ih
  | map k e _ _ => rfl
  | bool => rfl
  | int => rfl
  | string => rfl
  | struct n => rfl
  | iface n => rfl
  | func n => rfl

/-! ## Claims on the type classifier -/

/-- Claim C8. For a descriptor `t` whose chain of element types reaches a kind that is none of
array, channel, pointer, slice (every finite descriptor is such), `getElementaryType` returns
the descriptor `e` reached from `t` by taking the element type while the kind is one of those
four; the kind of `e` is none of the four; and when the kind of `t` is none of the four, it
returns `t`. Pointer to slice of struct `S` resolves to `S`, and a map type is returned as
it is. -/
theorem getElementaryType_strips {τ : Type} (R : ReflectType τ) (t : τ)
    (hfin : ∃ n, isLayer (R.Kind (R.Elem^[n] t)) = false) :
    (∃ n e, e = R.Elem^[n] t ∧
      (∀ i, i < n → isLayer (R.Kind (R.Elem^[i] t)) = true) ∧
      (∀ fuel, n < fuel → getElementaryType R fuel t = some e) ∧
      R.Kind e ≠ Kind.Array ∧ R.Kind e ≠ Kind.Chan ∧ R.Kind e ≠ Kind.Ptr ∧
      R.Kind e ≠ Kind.Slice) ∧
    (isLayer (R.Kind t) = false → ∀ fuel, 0 < fuel → getElementaryType R fuel t = some t) ∧
    (∀ d : GoType, ∃ n, isLayer (goTypes.Kind (goTypes.Elem^[n] d)) = false) ∧
    getElementaryType goTypes 3 (GoType.ptr (GoType.slice (GoType.struct "S"))) =
      some (GoType.struct "S") ∧
    getElementaryType goTypes 1 (GoType.map GoType.string (GoType.slice GoType.int)) =
      some (GoType.map GoType.string (GoType.slice GoType.int)) := by
  refine ⟨?_, ?_, fun d => ⟨d.layers, goType_layers d⟩, by decide, by decide⟩
  · classical
    have hmin : ∀ i, i < Nat.find hfin → isLayer (R.Kind (R.Elem^[i] t)) = true := by
      intro i hi
      have := Nat.find_min hfin hi
      simpa using this
    have hn := Nat.find_spec hfin
    refine ⟨Nat.find hfin, R.Elem^[Nat.find hfin] t, rfl, hmin, ?_, (isLayer_false _).1 hn⟩
    exact fun fuel hf => getElementaryType_iterate R _ t hmin hn fuel hf
  · intro h0 fuel hf
    exact getElementaryType_iterate R 0 t (fun i hi => absurd hi (Nat.not_lt_zero i)) h0 fuel hf

/-- Witness of C8: the descriptor of pointer to slice of struct `S`, whose chain ends after
two layers. -/
theorem getElementaryType_strips_witness :
    ∃ n e, e = goTypes.Elem^[n] (GoType.ptr (GoType.slice (GoType.struct "S"))) ∧
      (∀ i, i < n → isLayer (goTypes.Kind
        (goTypes.Elem^[i] (GoType.ptr (GoType.slice (GoType.struct "S"))))) = true) ∧
      (∀ fuel, n < fuel →
        getElementaryType goTypes fuel (GoType.ptr (GoType.slice (GoType.struct "S"))) =
          some e) ∧
      goTypes.Kind e ≠ Kind.Array ∧ goTypes.Kind e ≠ Kind.Chan ∧ goTypes.Kind e ≠ Kind.Ptr ∧
      goTypes.Kind e ≠ Kind.Slice :=
  (getElementaryType_strips goTypes (GoType.ptr (GoType.slice (GoType.struct "S")))
    ⟨2, rfl⟩).1

/-- Claim C9. `getElementaryType` is idempotent: when it returns `e` on `t`, it returns `e`
on `e`, so that applying it to its own result gives that result. -/
theorem getElementaryType_idempotent {τ : Type} (R : ReflectType τ) (fuel fuel2 : Nat)
    (t e : τ) (h : getElementaryType R fuel t = some e) :
    getElementaryType R (fuel2 + 1) e = some e ∧
    (getElementaryType R fuel t).bind (getElementaryType R (fuel2 + 1)) =
      getElementaryType R fuel t := by
  have he : getElementaryType R (fuel2 + 1) e = some e := by
    rw [getElementaryType_succ, getElementaryType_some R fuel t e h]
    rfl
  refine ⟨he, ?_⟩
  rw [h, Option.some_bind, he]

/-- Witness of C9: on pointer to slice of struct `S` the result is `S`, again resolved to
`S`. -/
theorem getElementaryType_idempotent_witness :
    getElementaryType goTypes 3 (GoType.ptr (GoType.slice (GoType.struct "S"))) =
      some (GoType.struct "S") ∧
    getElementaryType goTypes 1 (GoType.struct "S") = some (GoType.struct "S") :=
  ⟨by decide, (getElementaryType_idempotent goTypes 3 0
    (GoType.ptr (GoType.slice (GoType.struct "S"))) (GoType.struct "S") (by decide)).1⟩

/-- Claim C10. `isNillableType` is true exactly for the kinds channel, interface, map, pointer
and slice, and false exactly for every other kind: booleans, the integer and float kinds,
complex, string, struct, array, func, unsafe pointer (and the invalid kind). -/
theorem isNillableType_iff {τ : Type} (R : ReflectType τ) (t : τ) :
    (isNillableType R t = true ↔
      R.Kind t = Kind.Chan ∨ R.Kind t = Kind.Interface ∨ R.Kind t = Kind.Map ∨
        R.Kind t = Kind.Ptr ∨ R.Kind t = Kind.Slice) ∧
    (isNillableType R t = false ↔
      R.Kind t = Kind.Invalid ∨ R.Kind t = Kind.Bool ∨ R.Kind t = Kind.Int ∨
        R.Kind t = Kind.Int8 ∨ R.Kind t = Kind.Int16 ∨ R.Kind t = Kind.Int32 ∨
        R.Kind t = Kind.Int64 ∨ R.Kind t = Kind.Uint ∨ R.Kind t = Kind.Uint8 ∨
        R.Kind t = Kind.Uint16 ∨ R.Kind t = Kind.Uint32 ∨ R.Kind t = Kind.Uint64 ∨
        R.Kind t = Kind.Uintptr ∨ R.Kind t = Kind.Float32 ∨ R.Kind t = Kind.Float64 ∨
        R.Kind t = Kind.Complex64 ∨ R.Kind t = Kind.Complex128 ∨ R.Kind t = Kind.String ∨
        R.Kind t = Kind.Struct ∨ R.Kind t = Kind.Array ∨ R.Kind t = Kind.Func ∨
        R.Kind t = Kind.UnsafePointer) := by
  unfold isNillableType
  generalize R.Kind t = k
  cases k <;> simp

/-- Claim C11 as stated fails: the array of two maps is not nillable, the pointer to it is
one layer of indirection around it and is nillable, and the elementary type of the pointer is
the map type, which is nillable. -/
theorem nillable_pointer_to_array_of_maps :
    isNillableType goTypes (GoType.array 2 (GoType.map GoType.string GoType.int)) = false ∧
    goTypes.Kind (GoType.ptr (GoType.array 2 (GoType.map GoType.string GoType.int))) =
      Kind.Ptr ∧
    goTypes.Elem (GoType.ptr (GoType.array 2 (GoType.map GoType.string GoType.int))) =
      GoType.array 2 (GoType.map GoType.string GoType.int) ∧
    isNillableType goTypes
      (GoType.ptr (GoType.array 2 (GoType.map GoType.string GoType.int))) = true ∧
    getElementaryType goTypes 3
      (GoType.ptr (GoType.array 2 (GoType.map GoType.string GoType.int))) =
      some (GoType.map GoType.string GoType.int) ∧
    isNillableType goTypes (GoType.map GoType.string GoType.int) = true := by
  decide

/-- Claim C11, amended. For every type `P` that is not nillable and whose elementary type `e`
is not nillable either (every such `P` whose kind is not array is its own elementary type),
and every type `T` that is a pointer to `P`, a slice of `P` or a channel of `P`: `T` is
nillable, and `getElementaryType` returns on `T` the type `e`, which is not nillable. -/
theorem nillable_single_layer {τ : Type} (R : ReflectType τ) (P T e : τ) (fuel : Nat)
    (hP : isNillableType R P = false)
    (hT : R.Kind T = Kind.Ptr ∨ R.Kind T = Kind.Slice ∨ R.Kind T = Kind.Chan)
    (hE : R.Elem T = P)
    (he : getElementaryType R fuel P = some e) (hne : isNillableType R e = false) :
    isNillableType R T = true ∧
    getElementaryType R (fuel + 1) T = some e ∧
    (∀ x, getElementaryType R (fuel + 1) T = some x → isNillableType R x = false) ∧
    (R.Kind P ≠ Kind.Array → e = P) := by
  have hTl : isLayer (R.Kind T) = true := by
    rcases hT with h | h | h <;> rw [h] <;> rfl
  have hT1 : isNillableType R T = true := by
    unfold isNillableType
    rcases hT with h | h | h <;> rw [h]
  have hg : getElementaryType R (fuel + 1) T = some e := by
    rw [getElementaryType_succ, if_pos hTl, hE, he]
  refine ⟨hT1, hg, ?_, ?_⟩
  · intro x hx
    rw [hg] at hx
    cases hx
    exact hne
  · intro hA
    have hPl : isLayer (R.Kind P) = false := by
      unfold isNillableType at hP
      revert hP hA
      generalize R.Kind P = k
      cases k <;> simp [isLayer]
    cases fuel with
    | zero => simp [getElementaryType] at he
    | succ f =>
      rw [getElementaryType_succ, hPl] at he
      simpa using he.symm

/-- Witness of C11: pointer to int is nillable, its elementary type is int, which is not. -/
theorem nillable_single_layer_witness :
    isNillableType goTypes (GoType.ptr GoType.int) = true ∧
    getElementaryType goTypes 2 (GoType.ptr GoType.int) = some GoType.int ∧
    isNillableType goTypes GoType.int = false :=
  ⟨(nillable_single_layer goTypes GoType.int (GoType.ptr GoType.int) GoType.int 1
      (by decide) (Or.inl rfl) rfl (by decide) (by decide)).1,
    (nillable_single_layer goTypes GoType.int (GoType.ptr GoType.int) GoType.int 1
      (by decide) (Or.inl rfl) rfl (by decide) (by decide)).2.1,
    by decide⟩

theorem getElementaryType_none {τ : Type} (R : ReflectType τ) (n : Nat) (t : τ)
    (hl : ∀ i, i < n → isLayer (R.Kind (R.Elem^[i] t)) = true) (fuel : Nat) (hf : fuel ≤ n) :
    getElementaryType R fuel t = none := by
  induction fuel generalizing t n with
  | zero => rfl
  | succ f ih =>
    obtain ⟨m, rfl⟩ : ∃ m, n = m + 1 := ⟨n - 1, by omega⟩
    have h0 : isLayer (R.Kind t) = true := hl 0 (by omega)
    rw [getElementaryType_succ, if_pos h0]
    apply ih m
    · intro i hi
      have := hl (i + 1) (by omega)
      rwa [Function.iterate_succ_apply] at this
    · omega

theorem getElementaryType_self_layer {τ : Type} (R : ReflectType τ) (t : τ)
    (hk : isLayer (R.Kind t) = true) (he : R.Elem t = t) (fuel : Nat) :
    getElementaryType R fuel t = none := by
  induction fuel with
  | zero => rfl
  | succ f ih => rw [getElementaryType_succ, if_pos hk, he, ih]

/-- Claim C18, evaluated on the code: `isNillableType` is false on a func type and on the
unsafe pointer type, whose values can be nil. -/
theorem isNillableType_func_unsafePointer :
    goTypes.Kind (GoType.func "f") = Kind.Func ∧
    isNillableType goTypes (GoType.func "f") = false ∧
    unsafePointerType.Kind () = Kind.UnsafePointer ∧
    isNillableType unsafePointerType () = false := by
  decide

/-- Claim C19 as stated fails: on the descriptor of `type T []T`, and on that of
`type P *P`, the recursion returns for no depth. -/
theorem getElementaryType_recursive_type :
    (¬ ∃ fuel e, getElementaryType sliceOfSelf fuel () = some e) ∧
    (¬ ∃ fuel e, getElementaryType pointerToSelf fuel () = some e) := by
  constructor
  · rintro ⟨fuel, e, h⟩
    rw [getElementaryType_self_layer sliceOfSelf () rfl rfl fuel] at h
    cases h
  · rintro ⟨fuel, e, h⟩
    rw [getElementaryType_self_layer pointerToSelf () rfl rfl fuel] at h
    cases h

/-- Claim C19, amended. On a descriptor whose chain of element types has `n` descriptors of
the kinds array, channel, pointer, slice and then one of another kind, `getElementaryType`
returns that descriptor after stripping exactly `n` layers: a recursion of depth `n + 1`
returns it and no smaller depth returns. -/
theorem getElementaryType_terminates {τ : Type} (R : ReflectType τ) (t : τ) (n : Nat)
    (hl : ∀ i, i < n → isLayer (R.Kind (R.Elem^[i] t)) = true)
    (hn : isLayer (R.Kind (R.Elem^[n] t)) = false) :
    getElementaryType R (n + 1) t = some (R.Elem^[n] t) ∧
    (∀ fuel, fuel ≤ n → getElementaryType R fuel t = none) ∧
    (∀ fuel, n < fuel → getElementaryType R fuel t = some (R.Elem^[n] t)) ∧
    R.Kind (R.Elem^[n] t) ≠ Kind.Array ∧ R.Kind (R.Elem^[n] t) ≠ Kind.Chan ∧
    R.Kind (R.Elem^[n] t) ≠ Kind.Ptr ∧ R.Kind (R.Elem^[n] t) ≠ Kind.Slice :=
  ⟨getElementaryType_iterate R n t hl hn (n + 1) (Nat.lt_succ_self n),
    getElementaryType_none R n t hl,
    getElementaryType_iterate R n t hl hn,
    (isLayer_false _).1 hn⟩

/-- Witness of C19: slice of pointer to int has two layers; depth 3 returns int, depth 2
does not return. -/
theorem getElementaryType_terminates_witness :
    getElementaryType goTypes 3 (GoType.slice (GoType.ptr GoType.int)) = some GoType.int ∧
    getElementaryType goTypes 2 (GoType.slice (GoType.ptr GoType.int)) = none :=
  ⟨(getElementaryType_terminates goTypes (GoType.slice (GoType.ptr GoType.int)) 2
      (by decide) (by decide)).1,
    (getElementaryType_terminates goTypes (GoType.slice (GoType.ptr GoType.int)) 2
      (by decide) (by decide)).2.1 2 (Nat.le_refl 2)⟩

/-- Claim C20. The result `e` of `getElementaryType` is nillable exactly when its kind is
interface or map. The elementary type of an array of maps is the map type, which is nillable,
although the array is not. -/
theorem isNillableType_elementary {τ : Type} (R : ReflectType τ) (fuel : Nat) (t e : τ)
    (h : getElementaryType R fuel t = some e) :
    (isNillableType R e = true ↔ R.Kind e = Kind.Interface ∨ R.Kind e = Kind.Map) ∧
    getElementaryType goTypes 2 (GoType.array 2 (GoType.map GoType.string GoType.int)) =
      some (GoType.map GoType.string GoType.int) ∧
    isNillableType goTypes (GoType.map GoType.string GoType.int) = true ∧
    isNillableType goTypes (GoType.array 2 (GoType.map GoType.string GoType.int)) = false := by
  refine ⟨?_, by decide, by decide, by decide⟩
  have hl := getElementaryType_some R fuel t e h
  unfold isNillableType
  revert hl
  generalize R.Kind e = k
  cases k <;> simp [isLayer]

/-- Witness of C20: the elementary type of pointer to slice of an interface type is the
interface type, which is nillable. -/
theorem isNillableType_elementary_witness :
    getElementaryType goTypes 3 (GoType.ptr (GoType.slice (GoType.iface "I"))) =
      some (GoType.iface "I") ∧
    (isNillableType goTypes (GoType.iface "I") = true ↔
      goTypes.Kind (GoType.iface "I") = Kind.Interface ∨
        goTypes.Kind (GoType.iface "I") = Kind.Map) :=
  ⟨by decide, (isNillableType_elementary goTypes 3
    (GoType.ptr (GoType.slice (GoType.iface "I"))) (GoType.iface "I") (by decide)).1⟩

/-! ## Lemmas on the naming engine -/

theorem decode_pos (s : GoString) (hs : s ≠ []) : 0 < (DecodeRuneInString s).2 := by
  cases s with
  | nil => exact absurd rfl hs
  | cons b s =>
    by_cases hb : b < 128
    · rw [decode_ascii b s hb]
      exact Nat.one_pos
    · unfold DecodeRuneInString
      simp only [RuneSelf]
      rw [if_neg hb]
      cases hu : utf8First b with
      | none => exact Nat.one_pos
      | some v =>
        obtain ⟨sz, lo, hi⟩ := v
        simp only []
        split_ifs <;> simp

theorem runeString_ascii (r : Nat) (h : r ≤ 0x7F) : runeString r = [r] := by
  unfold runeString
  rw [if_pos h]

theorem capitalize_letter (titleCase : Nat → Nat) (c : Nat) (r : GoString)
    (hc : isLetter c) :
    capitalize titleCase (c :: r) = (if 97 ≤ c ∧ c ≤ 122 then c - 32 else c) :: r := by
  have h128 := isLetter_lt c hc
  have ht : ToTitle titleCase c = if 97 ≤ c ∧ c ≤ 122 then c - 32 else c := by
    unfold ToTitle
    rw [if_pos (by omega)]
  have hle : (if 97 ≤ c ∧ c ≤ 122 then c - 32 else c) ≤ 0x7F := by
    split_ifs <;> omega
  unfold capitalize
  rw [decode_ascii c r h128]
  simp only [Nat.le_zero_eq, Nat.succ_ne_zero, if_false, List.drop_succ_cons, List.drop_zero]
  rw [ht, runeString_ascii _ hle]
  rfl

theorem uncapitalize_letter (lowerCase : Nat → Nat) (c : Nat) (r : GoString)
    (hc : isLetter c) :
    uncapitalize lowerCase (c :: r) = (if 65 ≤ c ∧ c ≤ 90 then c + 32 else c) :: r := by
  have h128 := isLetter_lt c hc
  have ht : ToLower lowerCase c = if 65 ≤ c ∧ c ≤ 90 then c + 32 else c := by
    unfold ToLower
    rw [if_pos (by omega)]
  have hle : (if 65 ≤ c ∧ c ≤ 90 then c + 32 else c) ≤ 0x7F := by
    split_ifs <;> omega
  unfold uncapitalize
  rw [decode_ascii c r h128]
  simp only [Nat.le_zero_eq, Nat.succ_ne_zero, if_false, List.drop_succ_cons, List.drop_zero]
  rw [ht, runeString_ascii _ hle]
  rfl

theorem titledLoop_getElem? (titleCase : Nat → Nat) (parts : List GoString) (n i : Nat)
    (titled : List GoString) (j : Nat) :
    (titledLoop titleCase parts n i titled)[j]? =
      if i ≤ j ∧ j < i + n ∧ j < titled.length
        then some (capitalize titleCase (parts.getD j [])) else titled[j]? := by
  induction n generalizing i titled with
  | zero =>
    rw [titledLoop, if_neg (by omega)]
  | succ n ih =>
    rw [titledLoop, ih, List.length_set, List.getElem?_set]
    by_cases h1 : i + 1 ≤ j ∧ j < i + 1 + n ∧ j < titled.length
    · rw [if_pos h1, if_pos (by omega)]
    · rw [if_neg h1]
      by_cases h2 : i = j
      · subst h2
        rw [if_pos rfl]
        by_cases h3 : i < titled.length
        · rw [if_pos h3, if_pos (by omega)]
        · rw [if_neg h3, if_neg (by omega)]
          exact (List.getElem?_eq_none (by omega)).symm
      · rw [if_neg h2, if_neg (by omega)]

theorem titledLoop_eq_map (titleCase : Nat → Nat) (parts : List GoString) :
    titledLoop titleCase parts parts.length 0 (List.replicate parts.length []) =
      parts.map (capitalize titleCase) := by
  apply List.ext_getElem?
  intro j
  rw [titledLoop_getElem?, List.length_replicate, List.getElem?_map]
  by_cases hj : j < parts.length
  · rw [if_pos (by omega), List.getElem?_eq_getElem hj, Option.map_some',
      List.getD_eq_getElem _ _ hj]
  · rw [if_neg (by omega), List.getElem?_eq_none (by simpa using hj),
      List.getElem?_eq_none (by simpa using hj)]
    rfl

theorem foldl_join_nil (es : List GoString) (e : GoString) :
    es.foldl (fun b s => b ++ [] ++ s) e = e ++ es.flatten := by
  induction es generalizing e with
  | nil => simp
  | cons x es ih => rw [List.foldl_cons, ih]; simp

theorem stringsJoin_nil (elems : List GoString) : strings.Join elems [] = elems.flatten := by
  cases elems with
  | nil => rfl
  | cons e es => rw [strings.Join, foldl_join_nil]; simp

/-! ## Claims on the naming engine -/

/-- Claim C12. `compoundTypeName` returns `base` followed by the concatenation, in order, of
`capitalize` of each part; `base` is a prefix of the result, and an empty list of parts
returns `base`. The four examples of the claim evaluate as stated. -/
theorem compoundTypeName_eq (titleCase : Nat → Nat) (base : GoString)
    (parts : List GoString) :
    compoundTypeName titleCase base parts =
      base ++ (parts.map (capitalize titleCase)).flatten ∧
    base <+: compoundTypeName titleCase base parts ∧
    compoundTypeName titleCase base [] = base ∧
    compoundTypeName titleCase (str "base") [] = str "base" ∧
    compoundTypeName titleCase (str "base") [str "list"] = str "baseList" ∧
    compoundTypeName titleCase [] [str "x"] = str "X" ∧
    compoundTypeName titleCase (str "base") [str "list", str "items"] =
      str "baseListItems" := by
  have key : ∀ (b : GoString) (ps : List GoString), compoundTypeName titleCase b ps =
      b ++ (ps.map (capitalize titleCase)).flatten := by
    intro b ps
    unfold compoundTypeName
    rw [titledLoop_eq_map, stringsJoin_nil]
  refine ⟨key base parts, ?_, ?_, ?_, ?_, ?_, ?_⟩
  · rw [key]
    exact List.prefix_append _ _
  · rw [key]; simp
  · rw [key]; simp
  · rw [key]
    simp only [List.map_cons, List.map_nil, List.flatten_cons, List.flatten_nil,
      List.append_nil]
    rw [show str "list" = 108 :: str "ist" from rfl, capitalize_letter _ _ _ (by decide)]
    rfl
  · rw [key]
    simp only [List.map_cons, List.map_nil, List.flatten_cons, List.flatten_nil,
      List.append_nil]
    rw [show str "x" = 120 :: [] from rfl, capitalize_letter _ _ _ (by decide)]
    rfl
  · rw [key]
    simp only [List.map_cons, List.map_nil, List.flatten_cons, List.flatten_nil,
      List.append_nil]
    rw [show str "list" = 108 :: str "ist" from rfl, capitalize_letter _ _ _ (by decide),
      show str "items" = 105 :: str "tems" from rfl, capitalize_letter _ _ _ (by decide)]
    rfl

theorem decode_le_length (s : GoString) : (DecodeRuneInString s).2 ≤ s.length := by
  cases s with
  | nil => exact Nat.le_refl 0
  | cons b s =>
    by_cases hb : b < 128
    · rw [decode_ascii b s hb]
      simp
    · unfold DecodeRuneInString
      simp only [RuneSelf]
      rw [if_neg hb]
      cases hu : utf8First b with
      | none => simp
      | some v =>
        obtain ⟨sz, lo, hi⟩ := v
        have hv := utf8First_some b sz lo hi hu
        simp only []
        split_ifs <;> simp only [List.length_cons] at * <;> omega

/-- Claim C13. Both functions return the empty string on the empty string. On a non-empty
string, whose first rune has a positive width within the string, `capitalize` returns the
title-case mapping of the first rune followed by the remainder unchanged, and `uncapitalize`
the lower-case mapping of the first rune followed by the remainder unchanged. On a string
`c :: r` that starts with an ASCII letter `c`, the first letter is upper-cased (lower-cased),
the length is preserved, and `capitalize` after `uncapitalize` equals `capitalize`. -/
theorem capitalize_first_rune (titleCase lowerCase : Nat → Nat) (s : GoString) (c : Nat)
    (r : GoString) (hs : s ≠ []) (hc : isLetter c) :
    capitalize titleCase [] = [] ∧ uncapitalize lowerCase [] = [] ∧
    (0 < (DecodeRuneInString s).2 ∧ (DecodeRuneInString s).2 ≤ s.length ∧
      capitalize titleCase s =
        runeString (ToTitle titleCase (DecodeRuneInString s).1) ++
          s.drop (DecodeRuneInString s).2 ∧
      uncapitalize lowerCase s =
        runeString (ToLower lowerCase (DecodeRuneInString s).1) ++
          s.drop (DecodeRuneInString s).2) ∧
    (capitalize titleCase (c :: r) = (if 97 ≤ c ∧ c ≤ 122 then c - 32 else c) :: r ∧
      uncapitalize lowerCase (c :: r) = (if 65 ≤ c ∧ c ≤ 90 then c + 32 else c) :: r ∧
      (capitalize titleCase (c :: r)).length = (c :: r).length ∧
      (uncapitalize lowerCase (c :: r)).length = (c :: r).length ∧
      capitalize titleCase (uncapitalize lowerCase (c :: r)) =
        capitalize titleCase (c :: r)) := by
  have hpos := decode_pos s hs
  refine ⟨rfl, rfl, ⟨hpos, decode_le_length s, ?_, ?_⟩, ?_⟩
  · unfold capitalize
    rw [if_neg (by omega)]
  · unfold uncapitalize
    rw [if_neg (by omega)]
  · have hcap := capitalize_letter titleCase c r hc
    have hunc := uncapitalize_letter lowerCase c r hc
    have hc2 : isLetter (if 65 ≤ c ∧ c ≤ 90 then c + 32 else c) := by
      unfold isLetter at hc ⊢
      split_ifs <;> omega
    refine ⟨hcap, hunc, by rw [hcap]; rfl, by rw [hunc]; rfl, ?_⟩
    rw [hunc, capitalize_letter titleCase _ r hc2, hcap]
    congr 1
    unfold isLetter at hc
    split_ifs <;> omega

/-- Witness of C13: `list` is capitalized to `List`, and `List` is uncapitalized to `list`. -/
theorem capitalize_first_rune_witness :
    capitalize id (str "list") = str "List" ∧ uncapitalize id (str "List") = str "list" :=
  ⟨(capitalize_first_rune id id (str "list") 108 (str "ist") (by decide) (by decide)).2.2.2.1,
    (capitalize_first_rune id id (str "list") 76 (str "ist") (by decide)
      (by decide)).2.2.2.2.1⟩

/-! ## Lemmas on the type collection utilities -/

theorem stringLess_asymm (s t : GoString) (h : stringLess s t = true) :
    stringLess t s = false := by
  induction s generalizing t with
  | nil => cases t <;> simp [stringLess] at h ⊢
  | cons a s ih =>
    cases t with
    | nil => simp [stringLess] at h
    | cons b t =>
      rw [stringLess] at h ⊢
      by_cases h1 : a < b
      · rw [if_neg (by omega), if_pos h1]
      · rw [if_neg h1] at h
        by_cases h2 : b < a
        · rw [if_pos h2] at h; cases h
        · rw [if_neg h2] at h
          rw [if_neg h2, if_neg h1]
          exact ih t h

theorem stringLess_nil_right (c : GoString) : stringLess c [] = false := by
  cases c <;> rfl

theorem stringLess_le_trans (a b c : GoString) (h1 : stringLess b a = false)
    (h2 : stringLess c b = false) : stringLess c a = false := by
  induction a generalizing b c with
  | nil => exact stringLess_nil_right c
  | cons x a ih =>
    cases b with
    | nil => simp [stringLess] at h1
    | cons y b =>
      cases c with
      | nil => simp [stringLess] at h2
      | cons z c =>
        rw [stringLess] at h1 h2 ⊢
        by_cases hyx : y < x
        · rw [if_pos hyx] at h1; cases h1
        rw [if_neg hyx] at h1
        by_cases hzy : z < y
        · rw [if_pos hzy] at h2; cases h2
        rw [if_neg hzy] at h2
        rw [if_neg (by omega)]
        by_cases hxz : x < z
        · rw [if_pos hxz]
        · rw [if_neg hxz]
          have hxy : ¬ x < y := by omega
          have hyz : ¬ y < z := by omega
          rw [if_neg hxy] at h1
          rw [if_neg hyz] at h2
          exact ih b c h1 h2

theorem stringLess_antisymm (s t : GoString) (h1 : stringLess s t = false)
    (h2 : stringLess t s = false) : s = t := by
  induction s generalizing t with
  | nil =>
    cases t with
    | nil => rfl
    | cons b t => simp [stringLess] at h1
  | cons a s ih =>
    cases t with
    | nil => simp [stringLess] at h2
    | cons b t =>
      rw [stringLess] at h1 h2
      by_cases hab : a < b
      · rw [if_pos hab] at h1; cases h1
      rw [if_neg hab] at h1 h2
      by_cases hba : b < a
      · rw [if_pos hba] at h2; cases h2
      rw [if_neg hba] at h1 h2
      have hE : a = b := by omega
      rw [hE, ih t h1 h2]

/-- The order of `stringLess` is the lexicographic order of lists. -/
theorem stringLess_iff_lex (s t : GoString) :
    stringLess s t = true ↔ List.Lex (fun a b : Nat => a < b) s t := by
  induction s generalizing t with
  | nil =>
    cases t with
    | nil => simp [stringLess]
    | cons b t => simp [stringLess, List.Lex.nil]
  | cons a s ih =>
    cases t with
    | nil => simp [stringLess]
    | cons b t =>
      rw [stringLess]
      by_cases hab : a < b
      · rw [if_pos hab]
        exact ⟨fun _ => List.Lex.rel hab, fun _ => rfl⟩
      · rw [if_neg hab]
        by_cases hba : b < a
        · rw [if_pos hba]
          constructor
          · intro h; cases h
          · intro h
            cases h with
            | cons h => omega
            | rel h => omega
        · rw [if_neg hba, ih]
          have hE : a = b := by omega
          subst hE
          constructor
          · exact fun h => List.Lex.cons h
          · intro h
            cases h with
            | cons h => exact h
            | rel h => omega

theorem stableInsert_perm {β : Type} (less : β → β → Bool) (x : β) (l : List β) :
    (stableInsert less x l).Perm (x :: l) := by
  induction l with
  | nil => exact List.Perm.refl _
  | cons y l ih =>
    rw [stableInsert]
    split_ifs
    · exact ((List.Perm.cons y ih).trans (List.Perm.swap x y l))
    · exact List.Perm.refl _

theorem sliceStable_perm {β : Type} (less : β → β → Bool) (l : List β) :
    (SliceStable less l).Perm l := by
  induction l with
  | nil => exact List.Perm.refl _
  | cons x l ih =>
    rw [SliceStable]
    exact (stableInsert_perm less x _).trans (List.Perm.cons x ih)

theorem stableInsert_sorted {β : Type} (less : β → β → Bool)
    (hasymm : ∀ a b, less a b = true → less b a = false)
    (htrans : ∀ a b c, less b a = false → less c b = false → less c a = false)
    (x : β) (l : List β) (hl : l.Pairwise fun a b => less b a = false) :
    (stableInsert less x l).Pairwise fun a b => less b a = false := by
  induction l with
  | nil => exact List.pairwise_singleton _ _
  | cons y l ih =>
    rw [List.pairwise_cons] at hl
    rw [stableInsert]
    by_cases hyx : less y x = true
    · rw [if_pos hyx, List.pairwise_cons]
      refine ⟨?_, ih hl.2⟩
      intro z hz
      rcases List.mem_cons.1 ((stableInsert_perm less x l).subset hz) with rfl | hzl
      · exact hasymm _ _ hyx
      · exact hl.1 z hzl
    · rw [if_neg hyx]
      have hxy : less y x = false := by simpa using hyx
      rw [List.pairwise_cons, List.pairwise_cons]
      refine ⟨?_, hl⟩
      intro z hz
      rcases List.mem_cons.1 hz with rfl | hzl
      · exact hxy
      · exact htrans x y z hxy (hl.1 z hzl)

theorem sliceStable_sorted {β : Type} (less : β → β → Bool)
    (hasymm : ∀ a b, less a b = true → less b a = false)
    (htrans : ∀ a b c, less b a = false → less c b = false → less c a = false)
    (l : List β) : (SliceStable less l).Pairwise fun a b => less b a = false := by
  induction l with
  | nil => exact List.Pairwise.nil
  | cons x l ih =>
    rw [SliceStable]
    exact stableInsert_sorted less hasymm htrans x _ ih

theorem foldl_append_singleton {β γ : Type} (f : β → γ) (l : List β) (acc : List γ) :
    l.foldl (fun list e => list ++ [f e]) acc = acc ++ l.map f := by
  induction l generalizing acc with
  | nil => simp
  | cons x l ih => rw [List.foldl_cons, ih]; simp

theorem mapToSlice_eq {τ : Type} (entries : List (τ × GoString)) :
    mapToSlice entries =
      SliceStable (fun a b : typeAndName τ => stringLess a.Name b.Name)
        (entries.map fun e => { Typ := e.1, Name := e.2 }) := by
  unfold mapToSlice
  rw [foldl_append_singleton (fun e : τ × GoString => ({ Typ := e.1, Name := e.2 } : typeAndName τ))]
  rfl

theorem mapToSlice_sorted {τ : Type} (entries : List (τ × GoString)) :
    (mapToSlice entries).Pairwise fun a b => stringLess b.Name a.Name = false := by
  rw [mapToSlice_eq]
  exact sliceStable_sorted (fun a b : typeAndName τ => stringLess a.Name b.Name)
    (fun a b h => stringLess_asymm a.Name b.Name h)
    (fun a b c h1 h2 => stringLess_le_trans a.Name b.Name c.Name h1 h2) _

theorem mapToSlice_perm {τ : Type} (entries : List (τ × GoString)) :
    (mapToSlice entries).Perm (entries.map fun e => { Typ := e.1, Name := e.2 }) := by
  rw [mapToSlice_eq]
  exact sliceStable_perm _ _

theorem filter_eq {τ : Type} (types : List (typeAndName τ)) (keep : typeAndName τ → Bool) :
    filter types keep = types.filter keep := by
  have key : ∀ acc : List (typeAndName τ),
      types.foldl (fun filtered t => if keep t = true then filtered ++ [t] else filtered) acc =
        acc ++ types.filter keep := by
    induction types with
    | nil => intro acc; simp
    | cons x l ih =>
      intro acc
      rw [List.foldl_cons, ih]
      by_cases hx : keep x = true
      · rw [if_pos hx, List.filter_cons_of_pos hx]; simp
      · rw [if_neg hx, List.filter_cons_of_neg hx]
  unfold filter
  rw [key]
  rfl

/-! ## Claims on the type collection utilities -/

/-- Claim C14. For every enumeration of the entries of a map, `mapToSlice` returns a
permutation of the entries, of the same length, sorted by `Name` in non-decreasing
lexicographic order of the bytes. The map of `b` and `a` gives the entry of `a` then that of
`b`, for both orders of enumeration. -/
theorem mapToSlice_sorted_perm {τ : Type} (entries : List (τ × GoString)) :
    (mapToSlice entries).Perm (entries.map fun e => { Typ := e.1, Name := e.2 }) ∧
    (mapToSlice entries).length = entries.length ∧
    ((mapToSlice entries).Pairwise fun a b =>
      ¬ List.Lex (fun x y : Nat => x < y) b.Name a.Name) ∧
    mapToSlice [(GoType.int, str "b"), (GoType.string, str "a")] =
      [{ Typ := GoType.string, Name := str "a" }, { Typ := GoType.int, Name := str "b" }] ∧
    mapToSlice [(GoType.string, str "a"), (GoType.int, str "b")] =
      [{ Typ := GoType.string, Name := str "a" }, { Typ := GoType.int, Name := str "b" }] := by
  refine ⟨mapToSlice_perm entries, ?_, ?_, by decide, by decide⟩
  · rw [(mapToSlice_perm entries).length_eq, List.length_map]
  · refine (mapToSlice_sorted entries).imp ?_
    intro a b h hlex
    rw [← stringLess_iff_lex, h] at hlex
    cases hlex

/-- Claim C15 as stated fails: the map that gives the name `a` to both `int` and `string` has
two enumerations of its entries on which `mapToSlice` returns different sequences. -/
theorem mapToSlice_equal_names :
    [(GoType.int, str "a"), (GoType.string, str "a")].Perm
      [(GoType.string, str "a"), (GoType.int, str "a")] ∧
    ([(GoType.int, str "a"), (GoType.string, str "a")].map Prod.fst).Nodup ∧
    mapToSlice [(GoType.int, str "a"), (GoType.string, str "a")] =
      [{ Typ := GoType.int, Name := str "a" }, { Typ := GoType.string, Name := str "a" }] ∧
    mapToSlice [(GoType.string, str "a"), (GoType.int, str "a")] =
      [{ Typ := GoType.string, Name := str "a" }, { Typ := GoType.int, Name := str "a" }] ∧
    mapToSlice [(GoType.int, str "a"), (GoType.string, str "a")] ≠
      mapToSlice [(GoType.string, str "a"), (GoType.int, str "a")] :=
  ⟨List.Perm.swap _ _ _, by decide, by decide, by decide, by decide⟩

/-- Claim C15, amended. For every map in which no two types are given equal names, and any
two enumerations of its entries, `mapToSlice` returns the same sequence. -/
theorem mapToSlice_deterministic {τ : Type} (e1 e2 : List (τ × GoString))
    (hperm : e1.Perm e2) (hnames : (e1.map Prod.snd).Nodup) :
    mapToSlice e1 = mapToSlice e2 := by
  have hp : (mapToSlice e1).Perm (mapToSlice e2) :=
    (mapToSlice_perm e1).trans
      ((hperm.map _).trans (mapToSlice_perm e2).symm)
  refine List.Perm.eq_of_sorted ?_ (mapToSlice_sorted e1) (mapToSlice_sorted e2) hp
  intro a b ha hb hab hba
  have hn : a.Name = b.Name := stringLess_antisymm _ _ hba hab
  have ha1 := (mapToSlice_perm e1).subset ha
  have hb1 := (mapToSlice_perm e1).subset (hp.symm.subset hb)
  rw [List.mem_map] at ha1 hb1
  obtain ⟨x, hx, rfl⟩ := ha1
  obtain ⟨y, hy, rfl⟩ := hb1
  have hxy : x = y := List.inj_on_of_nodup_map hnames hx hy hn
  rw [hxy]

/-- Witness of C15: the two enumerations of the map of `b` and `a` give the same sequence. -/
theorem mapToSlice_deterministic_witness :
    mapToSlice [(GoType.int, str "b"), (GoType.string, str "a")] =
      mapToSlice [(GoType.string, str "a"), (GoType.int, str "b")] :=
  mapToSlice_deterministic _ _ (List.Perm.swap _ _ _) (by decide)

/-- Claim C16. `filter` returns the subsequence of `types` of the elements on which `keep` is
true: it is a sublist of `types` (same relative order), holds an element exactly when
`types` holds it and `keep` is true on it, as many times as `types` does, and is not longer
than `types`; with `keep` always true it returns `types`, with `keep` always false the empty
sequence. -/
theorem filter_subsequence {τ : Type} [DecidableEq τ] (types : List (typeAndName τ))
    (keep : typeAndName τ → Bool) :
    filter types keep = types.filter keep ∧
    (filter types keep).Sublist types ∧
    (∀ x, x ∈ filter types keep ↔ x ∈ types ∧ keep x = true) ∧
    (∀ x, (filter types keep).count x = if keep x = true then types.count x else 0) ∧
    (filter types keep).length ≤ types.length ∧
    filter types (fun _ => true) = types ∧
    filter types (fun _ => false) = [] := by
  refine ⟨filter_eq types keep, ?_, ?_, ?_, ?_, ?_, ?_⟩
  · rw [filter_eq]
    exact List.filter_sublist types
  · intro x
    rw [filter_eq, List.mem_filter]
  · intro x
    rw [filter_eq]
    by_cases hx : keep x = true
    · rw [if_pos hx, List.count_filter hx]
    · rw [if_neg hx, List.count_eq_zero, List.mem_filter]
      exact fun h => hx h.2
  · rw [filter_eq]
    exact List.length_filter_le _ _
  · rw [filter_eq]
    simp
  · rw [filter_eq]
    simp

/-! ## Claim on the doc comment of `Group` -/

/-- Claim C17 as stated fails, on an API without groups: the name `1abc` matches the pattern
of the doc comment and is rejected; the name `abc` does not match it and is accepted; the
prefix `a_b` matches the pattern of the doc comment for prefixes and is rejected. -/
theorem group_doc_patterns_differ :
    apiV1.EndpointGroups = [] ∧
    MatchString docNameRegExp (str "1abc") = true ∧
    (∃ e, (apiV1.Group noFold (str "1abc") []).1 = Except.error e) ∧
    MatchString docNameRegExp (str "abc") = false ∧
    (∃ g, (apiV1.Group noFold (str "abc") []).1 = Except.ok g) ∧
    MatchString docPrefixRegExp (str "a_b") = true ∧
    (∃ e, (apiV1.Group noFold [] (str "a_b")).1 = Except.error e) :=
  ⟨rfl, by decide, ⟨_, rfl⟩, by decide, ⟨_, rfl⟩, by decide, ⟨_, rfl⟩⟩

/-- Claim C17, amended. On an API with no conflicting group, `Group` accepts a name and a
prefix exactly when each of them matches `^([A-Za-z][0-9A-Za-z]*)?$`, that is, is empty or an
ASCII letter followed by ASCII letters and digits; every other name or prefix is rejected. -/
theorem group_accepts_iff {α ε : Type} [Inhabited ε] (simpleFold : Nat → Nat → Bool)
    (a : API α ε) (name pfx : GoString)
    (hno : ∀ g ∈ a.EndpointGroups, EqualFold simpleFold g.Name name = false ∧
      EqualFold simpleFold g.Prefix pfx = false) :
    ((∃ g, (a.Group simpleFold name pfx).1 = Except.ok g) ↔
      MatchString groupNameAndPrefixRegExp name = true ∧
        MatchString groupNameAndPrefixRegExp pfx = true) ∧
    ((∃ g, (a.Group simpleFold name pfx).1 = Except.ok g) ↔ isIdent name ∧ isIdent pfx) ∧
    ((∃ e, (a.Group simpleFold name pfx).1 = Except.error e) ↔
      ¬ (isIdent name ∧ isIdent pfx)) := by
  have hloop := (groupLoop_none simpleFold name pfx a.EndpointGroups).2 hno
  have h1 : (∃ g, (a.Group simpleFold name pfx).1 = Except.ok g) ↔
      MatchString groupNameAndPrefixRegExp name = true ∧
        MatchString groupNameAndPrefixRegExp pfx = true := by
    rcases group_cases simpleFold a name pfx with ⟨⟨e, hg⟩, hnot⟩ | ⟨hg, hn, hp, _⟩
    · constructor
      · rintro ⟨g, hok⟩
        rw [hg] at hok
        cases hok
      · rintro ⟨hn, hp⟩
        exact absurd ⟨hn, hp, hloop⟩ hnot
    · exact ⟨fun _ => ⟨hn, hp⟩, fun _ => ⟨_, by rw [hg]⟩⟩
  have h2 : (∃ e, (a.Group simpleFold name pfx).1 = Except.error e) ↔
      ¬ (∃ g, (a.Group simpleFold name pfx).1 = Except.ok g) := by
    cases hr : (a.Group simpleFold name pfx).1 with
    | error e => simp
    | ok g => simp
  refine ⟨h1, ?_, ?_⟩
  · rw [h1, matchString_iff, matchString_iff]
  · rw [h2, h1, matchString_iff, matchString_iff]

/-- Witness of C17: on an API without groups the name `abc` with the empty prefix is
accepted. -/
theorem group_accepts_iff_witness :
    (∃ g, (apiV1.Group noFold (str "abc") []).1 = Except.ok g) ↔
      isIdent (str "abc") ∧ isIdent [] :=
  (group_accepts_iff noFold apiV1 (str "abc") [] (by decide)).2.1

end Apigen
